import Mathlib

/-!
Verification of the math-span extraction and placeholder-resynthesis pipeline
of `src/renderer.rs` (markdown + LaTeX math rendering).

The Rust source is shallowly embedded over `List Char`:
* `process_math_expressions` runs four sequential passes over the text:
  1. block `$$...$$` (regex, non-greedy, leftmost-first),
  2. block `\[...\]` (regex, non-greedy, leftmost-first),
  3. inline `$...$` (manual byte scan with escape/double-dollar rejection),
  4. inline `\(...\)` (regex, non-greedy, leftmost-first),
  each replacing matched spans with `<!--MATH_BLOCK_i-->` / `<!--MATH_INLINE_i-->`
  placeholders and appending a `MathExpr` record.
* `render` feeds the placeholder text through an external markdown renderer
  (pulldown-cmark, out of scope, modelled as a function parameter) and then
  substitutes each placeholder by wrapper markup with `replacen(..., 1)`.

The scanners are written with an explicit fuel argument equal to the length of
the scanned text so that the recursion is structural and concrete runs reduce
by `decide`; every scanner step consumes at least one character, so the fuel
never runs out for the wrappers (`scanTwo`, `scanOne`), and when it would run
out the remaining text is returned unchanged.

A separate byte-level model (`scanOneB`) mirrors the `$...$` scan exactly as
the Rust code performs it on UTF-8 bytes, with `none` for every operation that
could panic (string slicing at a non-boundary index, exhausted fuel); it is
used to verify the totality / no-panic claim.
-/

namespace Md2Pdf

/-- `MathKind` from renderer.rs. -/
inductive MathKind where
  | Block
  | Inline
deriving DecidableEq, Repr

/-- `MathExpr` from renderer.rs: kind, delimiter-stripped trimmed content,
placeholder token. -/
structure MathExpr where
  kind : MathKind
  content : List Char
  placeholder : List Char
deriving DecidableEq, Repr

/-- Decimal digit character for `k % 10`; the digits emitted by Rust's
`format!("{}", idx)`. -/
def digitChar (k : Nat) : Char :=
  match k % 10 with
  | 0 => '0' | 1 => '1' | 2 => '2' | 3 => '3' | 4 => '4'
  | 5 => '5' | 6 => '6' | 7 => '7' | 8 => '8' | _ => '9'

/-- Fuel-structural decimal printer; `fuel > n` always suffices because the
argument shrinks by a factor of ten each step. -/
def natDigitsF : Nat → Nat → List Char
  | 0, _ => []
  | fuel + 1, n =>
    if n < 10 then [digitChar n]
    else natDigitsF fuel (n / 10) ++ [digitChar (n % 10)]

/-- Decimal representation of a natural number, as produced by
`format!("{}", idx)`: no leading zeros, `"0"` for zero. -/
def natDigits (n : Nat) : List Char := natDigitsF (n + 1) n

/-- Placeholder token `<!--MATH_BLOCK_{idx}-->` (`b = true`) or
`<!--MATH_INLINE_{idx}-->` (`b = false`), from `format!` in renderer.rs. -/
def mkPh (b : Bool) (n : Nat) : List Char :=
  (if b then "<!--MATH_BLOCK_" else "<!--MATH_INLINE_").toList
    ++ natDigits n ++ "-->".toList

def blockPh (n : Nat) : List Char := mkPh true n

def inlinePh (n : Nat) : List Char := mkPh false n

/-- Rust `char::is_whitespace`: the Unicode `White_Space` property. -/
def isRustWs (c : Char) : Bool :=
  c.toNat = 0x09 ∨ c.toNat = 0x0A ∨ c.toNat = 0x0B ∨ c.toNat = 0x0C ∨
  c.toNat = 0x0D ∨ c.toNat = 0x20 ∨ c.toNat = 0x85 ∨ c.toNat = 0xA0 ∨
  c.toNat = 0x1680 ∨ (0x2000 ≤ c.toNat ∧ c.toNat ≤ 0x200A) ∨
  c.toNat = 0x2028 ∨ c.toNat = 0x2029 ∨ c.toNat = 0x202F ∨
  c.toNat = 0x205F ∨ c.toNat = 0x3000

/-- Leading-whitespace removal, first half of Rust `str::trim`. -/
def trimLeft (l : List Char) : List Char := l.dropWhile isRustWs

/-- Trailing-whitespace removal, second half of Rust `str::trim`. -/
def trimRight (l : List Char) : List Char :=
  (l.reverse.dropWhile isRustWs).reverse

/-- Rust `str::trim`: strip leading and trailing Unicode whitespace. -/
def rustTrim (l : List Char) : List Char := trimRight (trimLeft l)

/-- Find the first two-character closing delimiter `c1 c2` (the lazy
`[\s\S]*?` of the block/paren regexes): returns the interior before it and the
text after it. -/
def findClose2 (c1 c2 : Char) : List Char → Option (List Char × List Char)
  | [] => none
  | [_] => none
  | a :: b :: rest =>
    if a = c1 ∧ b = c2 then some ([], rest)
    else
      match findClose2 c1 c2 (b :: rest) with
      | some (content, rest') => some (a :: content, rest')
      | none => none

/-- One regex pass for a two-character open/close delimiter pair
(`$$...$$`, `\[...\]`, `\(...\)` in renderer.rs): leftmost-first matching,
lazy interior, matched regions replaced by the span's placeholder; `mk` builds
the `MathExpr` from the next index and the raw interior.  `fuel` is consumed
one unit per step and is set to the text length by the `scanTwo` wrapper. -/
def scanTwoF (o1 o2 c1 c2 : Char) (mk : Nat → List Char → MathExpr) :
    Nat → List Char → List MathExpr → List Char × List MathExpr
  | 0, t, es => (t, es)
  | _ + 1, [], es => ([], es)
  | _ + 1, [c], es => ([c], es)
  | fuel + 1, a :: b :: rest, es =>
    if a = o1 ∧ b = o2 then
      match findClose2 c1 c2 rest with
      | some (content, rest') =>
        let e := mk es.length content
        let r := scanTwoF o1 o2 c1 c2 mk fuel rest' (es ++ [e])
        (e.placeholder ++ r.1, r.2)
      | none =>
        let r := scanTwoF o1 o2 c1 c2 mk fuel (b :: rest) es
        (a :: r.1, r.2)
    else
      let r := scanTwoF o1 o2 c1 c2 mk fuel (b :: rest) es
      (a :: r.1, r.2)

def scanTwo (o1 o2 c1 c2 : Char) (mk : Nat → List Char → MathExpr)
    (t : List Char) (es : List MathExpr) : List Char × List MathExpr :=
  scanTwoF o1 o2 c1 c2 mk t.length t es

/-- The inner `while j < len` loop of the `$...$` scan (renderer.rs lines
98-123): find the first valid closing `$` — not escaped, not adjacent to
another `$` on either side; `p` is the character just before the current head
(`bytes[j-1]`), initially the opening `$`. -/
def findClose (p : Char) : List Char → Option (List Char × List Char)
  | [] => none
  | c :: rest =>
    if c = '$' ∧ p ≠ '\\' ∧ p ≠ '$' ∧ rest.head? ≠ some '$' then
      some ([], rest)
    else
      match findClose c rest with
      | some (content, rest') => some (c :: content, rest')
      | none => none

/-- Span construction for the `$...$` pass (renderer.rs lines 105-117): the
newline check runs on the raw interior, the stored content is trimmed. -/
def mkInline (idx : Nat) (raw : List Char) : MathExpr :=
  if '\n' ∈ raw then ⟨.Block, rustTrim raw, blockPh idx⟩
  else ⟨.Inline, rustTrim raw, inlinePh idx⟩

/-- The `$...$` pass (renderer.rs lines 82-136): manual scan; a `$` is an
opener only if the previous character is neither `$` nor `\` and the next is
not `$`; with no valid closer the `$` is emitted literally and scanning
resumes one position later.  `prev` is the character at the previous position
of the original text (`bytes[i-1]`); for a multi-byte character the Rust code
compares its final byte, which is a continuation byte and hence never equal to
`$` or `\`, so comparing the whole previous character is equivalent. -/
def scanOneF : Nat → Option Char → List Char → List MathExpr →
    List Char × List MathExpr
  | 0, _, t, es => (t, es)
  | _ + 1, _, [], es => ([], es)
  | fuel + 1, prev, c :: rest, es =>
    if c = '$' ∧ prev ≠ some '$' ∧ prev ≠ some '\\' ∧ rest.head? ≠ some '$' then
      match findClose '$' rest with
      | some (content, rest') =>
        let e := mkInline es.length content
        let r := scanOneF fuel (some '$') rest' (es ++ [e])
        (e.placeholder ++ r.1, r.2)
      | none =>
        let r := scanOneF fuel (some '$') rest es
        ('$' :: r.1, r.2)
    else
      let r := scanOneF fuel (some c) rest es
      (c :: r.1, r.2)

def scanOne (prev : Option Char) (t : List Char) (es : List MathExpr) :
    List Char × List MathExpr :=
  scanOneF t.length prev t es

/-- Span construction for the `$$...$$` pass: always Block, trimmed. -/
def mkDollarDollar (idx : Nat) (raw : List Char) : MathExpr :=
  ⟨.Block, rustTrim raw, blockPh idx⟩

/-- Span construction for the `\[...\]` pass: always Block, trimmed. -/
def mkBracket (idx : Nat) (raw : List Char) : MathExpr :=
  ⟨.Block, rustTrim raw, blockPh idx⟩

/-- Span construction for the `\(...\)` pass (renderer.rs lines 144-157): the
content is trimmed first and the newline check runs on the trimmed content. -/
def mkParen (idx : Nat) (raw : List Char) : MathExpr :=
  let c := rustTrim raw
  if '\n' ∈ c then ⟨.Block, c, blockPh idx⟩
  else ⟨.Inline, c, inlinePh idx⟩

/-- `process_math_expressions` from renderer.rs: the four passes in order —
`$$...$$`, then `\[...\]`, then `$...$`, then `\(...\)`. -/
def process_math_expressions (input : List Char) :
    List Char × List MathExpr :=
  let r1 := scanTwo '$' '$' '$' '$' mkDollarDollar input []
  let r2 := scanTwo '\\' '[' '\\' ']' mkBracket r1.1 r1.2
  let r3 := scanOne none r2.1 r2.2
  let r4 := scanTwo '\\' '(' '\\' ')' mkParen r3.1 r3.2
  r4

/-- `matches!(kind, MathKind::Block)`. -/
def kindIsBlock : MathKind → Bool
  | .Block => true
  | .Inline => false

/-- `generate_math_html` from renderer.rs: wrap a TeX expression in an HTML
container; block content is re-wrapped in `$$...$$`, inline in `$...$`. -/
def generate_math_html (tex : List Char) (is_block : Bool) : List Char :=
  if is_block then
    "<div class=\"math-block\"><span class=\"katex-display\">$$".toList
      ++ tex ++ "$$</span></div>".toList
  else
    "<span class=\"math-inline\">$".toList ++ tex ++ "$</span>".toList

/-- Rust `String::replacen(pat, rep, 1)`: replace the first occurrence of
`pat`, leave the string unchanged when `pat` does not occur. -/
def replacen1 (pat rep : List Char) : List Char → List Char
  | [] => if pat.isPrefixOf ([] : List Char) then rep else []
  | c :: rest =>
    if pat.isPrefixOf (c :: rest) then rep ++ (c :: rest).drop pat.length
    else c :: replacen1 pat rep rest

/-- One resynthesis step of `render` (renderer.rs line 230):
`html.replacen(&expr.placeholder, &math_html, 1)`. -/
def resynthOne (html : List Char) (e : MathExpr) : List Char :=
  replacen1 e.placeholder (generate_math_html e.content (kindIsBlock e.kind))
    html

/-- `render` from renderer.rs: extract math, run the external markdown
renderer (a parameter here: pulldown-cmark is an out-of-scope collaborator),
then substitute each placeholder once, in span order. -/
def render (renderer : List Char → List Char) (content : List Char) :
    List Char :=
  let r := process_math_expressions content
  r.2.foldl resynthOne (renderer r.1)

/-- Number of occurrences of `pat` in `t` (an occurrence at every position
where `pat` is a prefix of the remaining text). -/
def countOcc (pat : List Char) : List Char → Nat
  | [] => if pat.isPrefixOf ([] : List Char) then 1 else 0
  | c :: rest =>
    (if pat.isPrefixOf (c :: rest) then 1 else 0) + countOcc pat rest

/-- Numeric value of a digit character. -/
def digitVal (c : Char) : Nat := c.toNat - 48

/-- Decimal value of a digit string (used to invert `natDigits`). -/
def listVal (l : List Char) : Nat :=
  l.foldl (fun a c => 10 * a + digitVal c) 0

/-- A placeholder-shaped token. -/
def PhShape (p : List Char) : Prop := ∃ b n, p = mkPh b n

/-- The common prefix of every placeholder token. -/
def phMarker : List Char := "<!--MATH_".toList

/-- The `i`-th span of the list carries a placeholder with index `i` — the
zero-based sequential numbering of renderer.rs. -/
def SpanListOK (es : List MathExpr) : Prop :=
  ∀ i (h : i < es.length), ∃ b, (es.get ⟨i, h⟩).placeholder = mkPh b i

/-- Every `$` inside an interior returned by the `$...$` closer search was
rejected by the closer test: its previous character (the character just
before the interior is `p`, the opening `$`) is an escape or a dollar, or the
character after it (the closing `$` when the split ends the interior) is a
dollar. -/
def interiorRejects (p : Char) (content : List Char) : Prop :=
  ∀ u v, content = u ++ '$' :: v →
    u.getLastD p = '\\' ∨ u.getLastD p = '$' ∨ v.headD '$' = '$'

-- ─────────────────────────────────────────────
--  Byte-level model of the `$...$` scan (for the totality claim)
-- ─────────────────────────────────────────────

/-- A UTF-8 continuation byte. -/
def isContByte (b : Nat) : Prop := 128 ≤ b ∧ b < 192

instance (b : Nat) : Decidable (isContByte b) := by
  unfold isContByte; infer_instance

/-- Well-formed UTF-8 byte sequences (a superset of the encodings of Rust
strings: overlong forms and surrogates are not excluded, which only makes the
totality theorem stronger). -/
inductive ValidUtf8 : List Nat → Prop where
  | nil : ValidUtf8 []
  | ascii {b : Nat} {rest : List Nat} : b < 128 → ValidUtf8 rest →
      ValidUtf8 (b :: rest)
  | two {b c1 : Nat} {rest : List Nat} : 192 ≤ b → b < 224 → isContByte c1 →
      ValidUtf8 rest → ValidUtf8 (b :: c1 :: rest)
  | three {b c1 c2 : Nat} {rest : List Nat} : 224 ≤ b → b < 240 →
      isContByte c1 → isContByte c2 → ValidUtf8 rest →
      ValidUtf8 (b :: c1 :: c2 :: rest)
  | four {b c1 c2 c3 : Nat} {rest : List Nat} : 240 ≤ b → b < 248 →
      isContByte c1 → isContByte c2 → isContByte c3 → ValidUtf8 rest →
      ValidUtf8 (b :: c1 :: c2 :: c3 :: rest)

/-- `char::len_utf8` read off the lead byte; `none` on a byte that cannot
start a character (`text[i..]` would panic at such an index). -/
def utf8Len (b : Nat) : Option Nat :=
  if b < 128 then some 1
  else if b < 192 then none
  else if b < 224 then some 2
  else if b < 240 then some 3
  else if b < 248 then some 4
  else none

/-- Byte-level version of the inner closer search (`while j < len`,
renderer.rs lines 98-123): `36 = b'$'`, `92 = b'\\'`. -/
def findCloseB (p : Nat) : List Nat → Option (List Nat × List Nat)
  | [] => none
  | c :: rest =>
    if c = 36 ∧ p ≠ 92 ∧ p ≠ 36 ∧ rest.head? ≠ some 36 then
      some ([], rest)
    else
      match findCloseB c rest with
      | some (content, rest') => some (c :: content, rest')
      | none => none

/-- UTF-8 bytes of a placeholder token (placeholders are pure ASCII). -/
def phBytes (b : Bool) (n : Nat) : List Nat := (mkPh b n).map Char.toNat

/-- Byte-level model of the `$...$` scan loop (renderer.rs lines 82-136),
mirroring exactly the operations the Rust code performs on the byte array:
`none` models a panic — slicing `&text[start + 1..j]` at a non-boundary index
(the interior starting with a continuation byte), slicing `&text[i..]` at a
non-boundary index (the current byte being a continuation or impossible lead
byte), or fuel exhaustion.  The result is the processed text; span contents
are dropped (building them cannot panic: `j` always sits on the ASCII byte
`36`, hence on a boundary). -/
def scanOneBF : Nat → Option Nat → List Nat → Nat → Option (List Nat)
  | 0, _, _, _ => none
  | _ + 1, _, [], _ => some []
  | fuel + 1, prev, b :: rest, k =>
    if b = 36 ∧ prev ≠ some 36 ∧ prev ≠ some 92 ∧ rest.head? ≠ some 36 then
      match findCloseB 36 rest with
      | some (content, rest') =>
        match content with
        | c :: _ =>
          if isContByte c then none
          else
            Option.map
              (fun out => phBytes (decide (10 ∈ content)) k ++ out)
              (scanOneBF fuel (some 36) rest' (k + 1))
        | [] =>
          Option.map
            (fun out => phBytes (decide (10 ∈ content)) k ++ out)
            (scanOneBF fuel (some 36) rest' (k + 1))
      | none =>
        Option.map (fun out => 36 :: out) (scanOneBF fuel (some 36) rest k)
    else
      match utf8Len b with
      | none => none
      | some len =>
        let ch := b :: rest.take (len - 1)
        Option.map (fun out => ch ++ out)
          (scanOneBF fuel (some (ch.getLastD b)) (rest.drop (len - 1)) k)

/-- Byte-level `$...$` scan with fuel set to the byte count (sufficient: each
step consumes at least one byte). -/
def scanOneB (prev : Option Nat) (bs : List Nat) (k : Nat) :
    Option (List Nat) :=
  scanOneBF (bs.length + 1) prev bs k

-- ─────────────────────────────────────────────
--  Decimal digit strings
-- ─────────────────────────────────────────────

theorem natDigitsF_irrel :
    ∀ (f1 f2 n : Nat), n < f1 → n < f2 → natDigitsF f1 n = natDigitsF f2 n
  | 0, _, n, h1, _ => absurd h1 (Nat.not_lt_zero n)
  | _ + 1, 0, n, _, h2 => absurd h2 (Nat.not_lt_zero n)
  | f1 + 1, f2 + 1, n, h1, h2 => by
    simp only [natDigitsF]
    split
    · rfl
    · rename_i h
      have hd : n / 10 < n := Nat.div_lt_self (by omega) (by omega)
      rw [natDigitsF_irrel f1 f2 (n / 10) (by omega) (by omega)]

theorem natDigits_eq (n : Nat) :
    natDigits n =
      if n < 10 then [digitChar n]
      else natDigits (n / 10) ++ [digitChar (n % 10)] := by
  unfold natDigits
  rw [natDigitsF]
  split
  · rfl
  · rename_i h
    have hd : n / 10 < n := Nat.div_lt_self (by omega) (by omega)
    rw [natDigitsF_irrel n (n / 10 + 1) (n / 10) (by omega) (by omega)]

theorem digitChar_range (k : Nat) :
    48 ≤ (digitChar k).toNat ∧ (digitChar k).toNat ≤ 57 := by
  unfold digitChar
  split <;> decide

theorem digitVal_digitChar (k : Nat) : digitVal (digitChar k) = k % 10 := by
  have h : k % 10 < 10 := Nat.mod_lt _ (by omega)
  unfold digitChar digitVal
  split <;> simp_all <;> omega

theorem mem_natDigits_range (n : Nat) :
    ∀ c ∈ natDigits n, 48 ≤ c.toNat ∧ c.toNat ≤ 57 := by
  induction n using Nat.strong_induction_on with
  | _ n ih =>
    intro c hc
    rw [natDigits_eq] at hc
    split at hc
    · simp only [List.mem_singleton] at hc
      exact hc ▸ digitChar_range n
    · rename_i h
      rcases List.mem_append.mp hc with h1 | h1
      · exact ih (n / 10) (Nat.div_lt_self (by omega) (by omega)) c h1
      · simp only [List.mem_singleton] at h1
        exact h1 ▸ digitChar_range (n % 10)

theorem natDigits_ne_nil (n : Nat) : natDigits n ≠ [] := by
  rw [natDigits_eq]
  split <;> simp

theorem foldl_val_natDigits (n : Nat) :
    ∀ a : Nat,
      List.foldl (fun a c => 10 * a + digitVal c) a (natDigits n) =
        a * 10 ^ (natDigits n).length + n := by
  induction n using Nat.strong_induction_on with
  | _ n ih =>
    intro a
    rw [natDigits_eq]
    split
    · rename_i h
      simp only [List.foldl_cons, List.foldl_nil, List.length_singleton,
        digitVal_digitChar]
      have : n % 10 = n := Nat.mod_eq_of_lt h
      rw [this]
      ring
    · rename_i h
      have hd : n / 10 < n := Nat.div_lt_self (by omega) (by omega)
      rw [List.foldl_append]
      rw [ih (n / 10) hd a]
      simp only [List.foldl_cons, List.foldl_nil, digitVal_digitChar,
        List.length_append, List.length_singleton]
      have hmod : n % 10 % 10 = n % 10 := Nat.mod_mod_of_dvd n (dvd_refl 10)
      rw [hmod]
      have hpow : 10 ^ ((natDigits (n / 10)).length + 1) =
          10 ^ (natDigits (n / 10)).length * 10 := by
        rw [pow_succ]
      rw [hpow]
      have hdm : 10 * (n / 10) + n % 10 = n := Nat.div_add_mod n 10
      generalize (10 : Nat) ^ (natDigits (n / 10)).length = P
      ring_nf
      omega

theorem natDigits_inj {n m : Nat} (h : natDigits n = natDigits m) : n = m := by
  have h1 := foldl_val_natDigits n 0
  have h2 := foldl_val_natDigits m 0
  rw [h] at h1
  rw [h1] at h2
  omega

-- ─────────────────────────────────────────────
--  Placeholder token lemmas
-- ─────────────────────────────────────────────

theorem mkPh_cons (b : Bool) (n : Nat) :
    mkPh b n =
      '<' :: ((if b then "!--MATH_BLOCK_" else "!--MATH_INLINE_").toList
        ++ natDigits n ++ "-->".toList) := by
  cases b <;> rfl

theorem mkPh_ne_nil (b : Bool) (n : Nat) : mkPh b n ≠ [] := by
  rw [mkPh_cons]; simp

theorem not_mem_natDigits_of_toNat_lt {c : Char} {n : Nat}
    (h : c.toNat < 48 ∨ 57 < c.toNat) : c ∉ natDigits n := by
  intro hc
  have := mem_natDigits_range n c hc
  omega

theorem lt_not_mem_mkPh_tail (b : Bool) (n : Nat) :
    '<' ∉ ((if b then "!--MATH_BLOCK_" else "!--MATH_INLINE_").toList
      ++ natDigits n ++ "-->".toList) := by
  intro h
  rw [List.append_assoc] at h
  rcases List.mem_append.mp h with h1 | h1
  · cases b
    · exact (by decide : ∀ c ∈ "!--MATH_INLINE_".toList, c ≠ '<') '<' h1 rfl
    · exact (by decide : ∀ c ∈ "!--MATH_BLOCK_".toList, c ≠ '<') '<' h1 rfl
  · rcases List.mem_append.mp h1 with h2 | h2
    · exact not_mem_natDigits_of_toNat_lt (by right; decide) h2
    · exact (by decide : ∀ c ∈ "-->".toList, c ≠ '<') '<' h2 rfl

theorem mem_mkPh_not_delim {c : Char} {b : Bool} {n : Nat}
    (h : c ∈ mkPh b n) :
    c ≠ '$' ∧ c ≠ '\\' ∧ c ≠ '[' ∧ c ≠ ']' ∧ c ≠ '(' ∧ c ≠ ')' := by
  unfold mkPh at h
  rw [List.append_assoc] at h
  rcases List.mem_append.mp h with h1 | h1
  · cases b
    · exact (by decide : ∀ x ∈ "<!--MATH_INLINE_".toList,
        x ≠ '$' ∧ x ≠ '\\' ∧ x ≠ '[' ∧ x ≠ ']' ∧ x ≠ '(' ∧ x ≠ ')') c h1
    · exact (by decide : ∀ x ∈ "<!--MATH_BLOCK_".toList,
        x ≠ '$' ∧ x ≠ '\\' ∧ x ≠ '[' ∧ x ≠ ']' ∧ x ≠ '(' ∧ x ≠ ')') c h1
  · rcases List.mem_append.mp h1 with h2 | h2
    · have := mem_natDigits_range n c h2
      refine ⟨?_, ?_, ?_, ?_, ?_, ?_⟩ <;> (intro he; subst he; revert this; decide)
    · exact (by decide : ∀ x ∈ "-->".toList,
        x ≠ '$' ∧ x ≠ '\\' ∧ x ≠ '[' ∧ x ≠ ']' ∧ x ≠ '(' ∧ x ≠ ')') c h2

theorem mkPh_true_ne_false (n m : Nat) : mkPh true n ≠ mkPh false m := by
  intro h
  have e1 : mkPh true n =
      "<!--MATH_BLOCK_".toList ++ natDigits n ++ "-->".toList := rfl
  have e2 : mkPh false m =
      "<!--MATH_INLINE_".toList ++ natDigits m ++ "-->".toList := rfl
  rw [e1, e2] at h
  have h9 := congrArg (fun l => l[9]?) h
  simp only at h9
  have hb1 : (9 : Nat) < ("<!--MATH_BLOCK_".toList ++ natDigits n).length := by
    rw [List.length_append]
    have : ("<!--MATH_BLOCK_".toList).length = 15 := by decide
    omega
  have hb2 : (9 : Nat) < ("<!--MATH_INLINE_".toList ++ natDigits m).length := by
    rw [List.length_append]
    have : ("<!--MATH_INLINE_".toList).length = 16 := by decide
    omega
  rw [List.getElem?_append_left hb1, List.getElem?_append_left hb2,
    List.getElem?_append_left
      (show (9 : Nat) < ("<!--MATH_BLOCK_".toList).length by decide),
    List.getElem?_append_left
      (show (9 : Nat) < ("<!--MATH_INLINE_".toList).length by decide)] at h9
  revert h9
  decide

theorem length_mkPh_gt_nine (b : Bool) (n : Nat) : 9 < (mkPh b n).length := by
  have hd : 0 < (natDigits n).length :=
    List.length_pos.mpr (natDigits_ne_nil n)
  cases b
  · have e : mkPh false n =
        "<!--MATH_INLINE_".toList ++ natDigits n ++ "-->".toList := rfl
    rw [e, List.length_append, List.length_append]
    have : ("<!--MATH_INLINE_".toList).length = 16 := by decide
    omega
  · have e : mkPh true n =
        "<!--MATH_BLOCK_".toList ++ natDigits n ++ "-->".toList := rfl
    rw [e, List.length_append, List.length_append]
    have : ("<!--MATH_BLOCK_".toList).length = 15 := by decide
    omega

theorem mkPh_get_nine (b : Bool) (n : Nat) :
    (mkPh b n)[9]? = some (if b then 'B' else 'I') := by
  cases b
  · have e : mkPh false n =
        "<!--MATH_INLINE_".toList ++ natDigits n ++ "-->".toList := rfl
    rw [e]
    have hb : (9 : Nat) < ("<!--MATH_INLINE_".toList ++ natDigits n).length := by
      rw [List.length_append]
      have : ("<!--MATH_INLINE_".toList).length = 16 := by decide
      omega
    rw [List.getElem?_append_left hb,
      List.getElem?_append_left
        (show (9 : Nat) < ("<!--MATH_INLINE_".toList).length by decide)]
    decide
  · have e : mkPh true n =
        "<!--MATH_BLOCK_".toList ++ natDigits n ++ "-->".toList := rfl
    rw [e]
    have hb : (9 : Nat) < ("<!--MATH_BLOCK_".toList ++ natDigits n).length := by
      rw [List.length_append]
      have : ("<!--MATH_BLOCK_".toList).length = 15 := by decide
      omega
    rw [List.getElem?_append_left hb,
      List.getElem?_append_left
        (show (9 : Nat) < ("<!--MATH_BLOCK_".toList).length by decide)]
    decide

theorem mkPh_inj {b b' : Bool} {n m : Nat} (h : mkPh b n = mkPh b' m) :
    b = b' ∧ n = m := by
  by_cases hb : b = b'
  · subst hb
    refine ⟨rfl, ?_⟩
    unfold mkPh at h
    rw [List.append_assoc, List.append_assoc] at h
    have h2 := List.append_cancel_left h
    have h3 := List.append_cancel_right h2
    exact natDigits_inj h3
  · exfalso
    cases b <;> cases b'
    · exact hb rfl
    · exact mkPh_true_ne_false m n h.symm
    · exact mkPh_true_ne_false n m h
    · exact hb rfl

-- ─────────────────────────────────────────────
--  Prefix classification of placeholder tokens
-- ─────────────────────────────────────────────

theorem prefix_append_cases {α : Type} {p x w : List α} (h : p <+: x ++ w) :
    p <+: x ∨ ∃ r, p = x ++ r ∧ r <+: w := by
  induction x generalizing p with
  | nil => exact Or.inr ⟨p, rfl, h⟩
  | cons c x' ih =>
    cases p with
    | nil => exact Or.inl List.nil_prefix
    | cons d p' =>
      rw [List.cons_append, List.cons_prefix_cons] at h
      obtain ⟨rfl, h2⟩ := h
      rcases ih h2 with h3 | ⟨r, rfl, hr⟩
      · exact Or.inl (List.cons_prefix_cons.mpr ⟨rfl, h3⟩)
      · exact Or.inr ⟨r, rfl, hr⟩

theorem digits_closer_pref :
    ∀ (d1 d2 t : List Char),
      (∀ c ∈ d1, 48 ≤ c.toNat ∧ c.toNat ≤ 57) →
      (∀ c ∈ d2, 48 ≤ c.toNat ∧ c.toNat ≤ 57) →
      (d1 ++ "-->".toList) <+: (d2 ++ "-->".toList ++ t) → d1 = d2
  | [], [], _, _, _, _ => rfl
  | [], c :: d2', t, _, h2, h => by
    exfalso
    have hc := h2 c (List.mem_cons_self c d2')
    have : ('-' : Char) = c := by
      have h' : ('-' :: "->".toList) <+: (c :: (d2' ++ "-->".toList ++ t)) := by
        simpa using h
      exact (List.cons_prefix_cons.mp h').1
    rw [← this] at hc
    revert hc
    decide
  | a :: d1', [], t, h1, _, h => by
    exfalso
    have ha := h1 a (List.mem_cons_self a d1')
    have : a = '-' := by
      have h' : (a :: (d1' ++ "-->".toList)) <+: ('-' :: ("->".toList ++ t)) := by
        simpa using h
      exact (List.cons_prefix_cons.mp h').1
    rw [this] at ha
    revert ha
    decide
  | a :: d1', c :: d2', t, h1, h2, h => by
    have h' : (a :: (d1' ++ "-->".toList)) <+:
        (c :: (d2' ++ "-->".toList ++ t)) := by
      simpa using h
    obtain ⟨rfl, h3⟩ := List.cons_prefix_cons.mp h'
    have := digits_closer_pref d1' d2' t
      (fun c hc => h1 c (List.mem_cons_of_mem _ hc))
      (fun c hc => h2 c (List.mem_cons_of_mem _ hc))
      (by simpa using h3)
    rw [this]

theorem mkPh_pref_append {b b' : Bool} {n m : Nat} {t : List Char}
    (h : mkPh b n <+: mkPh b' m ++ t) : b = b' ∧ n = m := by
  by_cases hb : b = b'
  · subst hb
    refine ⟨rfl, ?_⟩
    cases b
    · have e : ∀ k, mkPh false k =
          "<!--MATH_INLINE_".toList ++ (natDigits k ++ "-->".toList) := by
        intro k
        rw [mkPh]
        simp [List.append_assoc]
      rw [e n, e m, List.append_assoc,
        List.prefix_append_right_inj] at h
      exact natDigits_inj
        (digits_closer_pref (natDigits n) (natDigits m) t
          (mem_natDigits_range n) (mem_natDigits_range m) (by simpa using h))
    · have e : ∀ k, mkPh true k =
          "<!--MATH_BLOCK_".toList ++ (natDigits k ++ "-->".toList) := by
        intro k
        rw [mkPh]
        simp [List.append_assoc]
      rw [e n, e m, List.append_assoc,
        List.prefix_append_right_inj] at h
      exact natDigits_inj
        (digits_closer_pref (natDigits n) (natDigits m) t
          (mem_natDigits_range n) (mem_natDigits_range m) (by simpa using h))
  · exfalso
    obtain ⟨r, hr⟩ := h
    have h9 := congrArg (fun l => l[9]?) hr
    simp only at h9
    rw [List.getElem?_append_left (length_mkPh_gt_nine b n),
      List.getElem?_append_left (length_mkPh_gt_nine b' m),
      mkPh_get_nine, mkPh_get_nine] at h9
    cases b <;> cases b' <;> simp_all

theorem mkPh_pref_append_iff {b b' : Bool} {n m : Nat} {t : List Char} :
    mkPh b n <+: mkPh b' m ++ t ↔ (b = b' ∧ n = m) := by
  constructor
  · exact mkPh_pref_append
  · rintro ⟨rfl, rfl⟩
    exact List.prefix_append _ _

-- ─────────────────────────────────────────────
--  Occurrence counting
-- ─────────────────────────────────────────────

theorem countOcc_nil (p : List Char) :
    countOcc p [] = if p.isPrefixOf ([] : List Char) then 1 else 0 := rfl

theorem countOcc_cons (p : List Char) (c : Char) (rest : List Char) :
    countOcc p (c :: rest) =
      (if p.isPrefixOf (c :: rest) then 1 else 0) + countOcc p rest := rfl

theorem countOcc_append_ge {p : List Char} (hp : p ≠ []) :
    ∀ x w : List Char, countOcc p x + countOcc p w ≤ countOcc p (x ++ w) := by
  intro x w
  induction x with
  | nil =>
    rw [countOcc_nil, List.nil_append]
    have : ¬ p.isPrefixOf ([] : List Char) := by
      intro h
      exact hp (List.prefix_nil.mp (List.isPrefixOf_iff_prefix.mp h))
    rw [if_neg this]
    omega
  | cons c x' ih =>
    rw [List.cons_append, countOcc_cons, countOcc_cons]
    have hmono : p.isPrefixOf (c :: x') = true →
        p.isPrefixOf (c :: (x' ++ w)) = true := by
      intro h
      rw [List.isPrefixOf_iff_prefix] at h ⊢
      refine h.trans ?_
      rw [← List.cons_append]
      exact List.prefix_append _ _
    by_cases h : p.isPrefixOf (c :: x') = true
    · rw [if_pos h, if_pos (hmono h)]
      omega
    · rw [if_neg h]
      split <;> omega

theorem countOcc_append_no_lt {p : List Char} (hp : p.head? = some '<') :
    ∀ (s t : List Char), (∀ c ∈ s, c ≠ '<') →
      countOcc p (s ++ t) = countOcc p t := by
  intro s t hs
  induction s with
  | nil => rfl
  | cons c s' ih =>
    rw [List.cons_append, countOcc_cons]
    have hnp : ¬ p.isPrefixOf (c :: (s' ++ t)) = true := by
      intro h
      rw [List.isPrefixOf_iff_prefix] at h
      cases p with
      | nil => simp at hp
      | cons d p' =>
        have : d = '<' := by simpa using hp
        subst this
        have := (List.cons_prefix_cons.mp h).1
        exact hs c (List.mem_cons_self c s') this.symm
    rw [if_neg hnp, ih (fun c hc => hs c (List.mem_cons_of_mem _ hc))]
    omega

theorem mkPh_head (b : Bool) (n : Nat) : (mkPh b n).head? = some '<' := by
  rw [mkPh_cons]
  rfl

theorem lt_not_mem_mkPh_drop_one (b : Bool) (n : Nat) :
    '<' ∉ (mkPh b n).drop 1 := by
  rw [mkPh_cons]
  exact lt_not_mem_mkPh_tail b n

theorem mkPh_eq_cons_drop (b : Bool) (n : Nat) :
    mkPh b n = '<' :: (mkPh b n).drop 1 := by
  rw [mkPh_cons]
  simp

theorem countOcc_mkPh_append (b b' : Bool) (n m : Nat) (t : List Char) :
    countOcc (mkPh b n) (mkPh b' m ++ t) =
      (if b = b' ∧ n = m then 1 else 0) + countOcc (mkPh b n) t := by
  have hsplit : mkPh b' m ++ t = '<' :: ((mkPh b' m).drop 1 ++ t) := by
    conv_lhs => rw [mkPh_eq_cons_drop b' m]
    rfl
  rw [hsplit, countOcc_cons]
  have h2 : countOcc (mkPh b n) ((mkPh b' m).drop 1 ++ t) =
      countOcc (mkPh b n) t := by
    apply countOcc_append_no_lt (mkPh_head b n)
    intro c hc he
    exact lt_not_mem_mkPh_drop_one b' m (he ▸ hc)
  rw [h2]
  congr 1
  have hiff : (mkPh b n).isPrefixOf ('<' :: ((mkPh b' m).drop 1 ++ t)) =
      true ↔ (b = b' ∧ n = m) := by
    rw [List.isPrefixOf_iff_prefix, ← hsplit]
    exact mkPh_pref_append_iff
  by_cases h : b = b' ∧ n = m
  · rw [if_pos h, if_pos (hiff.mpr h)]
  · rw [if_neg h, if_neg (fun hx => h (hiff.mp hx))]

theorem countOcc_mkPh_mid (b b' : Bool) (n m : Nat) :
    ∀ (x t : List Char),
      countOcc (mkPh b n) (x ++ (mkPh b' m ++ t)) ≤
        countOcc (mkPh b n) x + (if b = b' ∧ n = m then 1 else 0) +
          countOcc (mkPh b n) t := by
  intro x t
  induction x with
  | nil =>
    rw [List.nil_append, countOcc_mkPh_append, countOcc_nil]
    split <;> omega
  | cons c x' ih =>
    rw [List.cons_append, countOcc_cons, countOcc_cons]
    have hind : (mkPh b n).isPrefixOf (c :: (x' ++ (mkPh b' m ++ t))) = true →
        (mkPh b n).isPrefixOf (c :: x') = true := by
      intro h
      rw [List.isPrefixOf_iff_prefix] at h ⊢
      have h' : mkPh b n <+: (c :: x') ++ (mkPh b' m ++ t) := by
        rw [List.cons_append]
        exact h
      rcases prefix_append_cases h' with h1 | ⟨r, hr, hrp⟩
      · exact h1
      · cases r with
        | nil =>
          rw [hr, List.append_nil]
        | cons d r' =>
          exfalso
          have hd : d = '<' := by
            rw [mkPh_eq_cons_drop b' m, List.cons_append] at hrp
            exact (List.cons_prefix_cons.mp hrp).1
          subst hd
          apply lt_not_mem_mkPh_drop_one b n
          rw [hr, List.cons_append, List.drop_succ_cons, List.drop_zero]
          exact List.mem_append.mpr (Or.inr (List.mem_cons_self _ _))
    by_cases h : (mkPh b n).isPrefixOf (c :: (x' ++ (mkPh b' m ++ t))) = true
    · rw [if_pos h, if_pos (hind h)]
      omega
    · rw [if_neg h]
      split <;> omega

-- ─────────────────────────────────────────────
--  Trimming lemmas
-- ─────────────────────────────────────────────

theorem dropWhile_ws_idem (l : List Char) :
    List.dropWhile isRustWs (List.dropWhile isRustWs l) =
      List.dropWhile isRustWs l := by
  induction l with
  | nil => rfl
  | cons c t ih =>
    rw [List.dropWhile_cons]
    split
    · exact ih
    · rename_i h
      rw [List.dropWhile_cons, if_neg h]

theorem trimLeft_idem (l : List Char) : trimLeft (trimLeft l) = trimLeft l :=
  dropWhile_ws_idem l

theorem trimRight_pref (l : List Char) : trimRight l <+: l := by
  have h : List.dropWhile isRustWs l.reverse <:+ l.reverse :=
    @List.dropWhile_suffix _ l.reverse isRustWs
  have h2 := List.reverse_prefix.mpr h
  rw [List.reverse_reverse] at h2
  exact h2

theorem trimLeft_suffix (l : List Char) : trimLeft l <:+ l :=
  List.dropWhile_suffix _

theorem rustTrim_isInfix (l : List Char) : rustTrim l <:+: l :=
  (trimRight_pref (trimLeft l)).isInfix.trans (trimLeft_suffix l).isInfix

theorem trimLeft_fix_of_head {c : Char} {t : List Char}
    (h : ¬ isRustWs c = true) : trimLeft (c :: t) = c :: t := by
  unfold trimLeft
  rw [List.dropWhile_cons, if_neg h]

theorem trimLeft_fix_head {l : List Char} (h : trimLeft l = l) :
    ∀ c t, l = c :: t → ¬ isRustWs c = true := by
  intro c t hl hc
  subst hl
  unfold trimLeft at h
  rw [List.dropWhile_cons, if_pos hc] at h
  have hle := (List.dropWhile_suffix (l := t) isRustWs).length_le
  rw [h] at hle
  simp at hle

theorem trimLeft_trimRight_fix {x : List Char} (h : trimLeft x = x) :
    trimLeft (trimRight x) = trimRight x := by
  cases hx : trimRight x with
  | nil => rfl
  | cons c t =>
    have hp := trimRight_pref x
    rw [hx] at hp
    obtain ⟨r, hr⟩ := hp
    have hc : ¬ isRustWs c = true := by
      apply trimLeft_fix_head h c (t ++ r)
      rw [← hr]
      rfl
    exact trimLeft_fix_of_head hc

theorem trimRight_idem (l : List Char) :
    trimRight (trimRight l) = trimRight l := by
  unfold trimRight
  rw [List.reverse_reverse, dropWhile_ws_idem]

theorem rustTrim_idem (l : List Char) : rustTrim (rustTrim l) = rustTrim l := by
  unfold rustTrim
  rw [trimLeft_trimRight_fix (trimLeft_idem l), trimRight_idem]

-- ─────────────────────────────────────────────
--  Closer-search lemmas
-- ─────────────────────────────────────────────

theorem findClose2_eq_append (c1 c2 : Char) :
    ∀ (l content rest' : List Char),
      findClose2 c1 c2 l = some (content, rest') →
      l = content ++ c1 :: c2 :: rest'
  | [], _, _, h => by simp [findClose2] at h
  | [_], _, _, h => by simp [findClose2] at h
  | a :: b :: rest, content, rest', h => by
    rw [findClose2] at h
    split at h
    · rename_i hab
      obtain ⟨rfl, rfl⟩ := hab
      simp only [Option.some.injEq, Prod.mk.injEq] at h
      obtain ⟨h1, h2⟩ := h
      rw [← h1, ← h2]
      rfl
    · cases hrec : findClose2 c1 c2 (b :: rest) with
      | none => rw [hrec] at h; simp at h
      | some pr =>
        obtain ⟨c', r'⟩ := pr
        rw [hrec] at h
        simp only [Option.some.injEq, Prod.mk.injEq] at h
        obtain ⟨h1, h2⟩ := h
        have hb := findClose2_eq_append c1 c2 (b :: rest) c' r' hrec
        rw [← h1, ← h2, List.cons_append, ← hb]

theorem findClose2_no_pair (c1 c2 : Char) :
    ∀ (l content rest' : List Char),
      findClose2 c1 c2 l = some (content, rest') →
      ¬∃ u v, content = u ++ c1 :: c2 :: v
  | [], _, _, h => by simp [findClose2] at h
  | [_], _, _, h => by simp [findClose2] at h
  | a :: b :: rest, content, rest', h => by
    rw [findClose2] at h
    split at h
    · rename_i hab
      simp only [Option.some.injEq, Prod.mk.injEq] at h
      obtain ⟨h1, _⟩ := h
      rintro ⟨u, v, hc⟩
      rw [← h1] at hc
      simp at hc
    · rename_i hab
      cases hrec : findClose2 c1 c2 (b :: rest) with
      | none => rw [hrec] at h; simp at h
      | some pr =>
        obtain ⟨c', r'⟩ := pr
        rw [hrec] at h
        simp only [Option.some.injEq, Prod.mk.injEq] at h
        obtain ⟨h1, _⟩ := h
        rintro ⟨u, v, hc⟩
        rw [← h1] at hc
        cases u with
        | nil =>
          simp only [List.nil_append, List.cons.injEq] at hc
          obtain ⟨hac, hc2⟩ := hc
          have hb := findClose2_eq_append c1 c2 (b :: rest) c' r' hrec
          rw [hc2] at hb
          simp only [List.cons_append, List.cons.injEq] at hb
          exact hab ⟨hac, hb.1⟩
        | cons x u' =>
          simp only [List.cons_append, List.cons.injEq] at hc
          exact findClose2_no_pair c1 c2 (b :: rest) c' r' hrec
            ⟨u', v, hc.2⟩

theorem findClose_eq_append :
    ∀ (p : Char) (l content rest' : List Char),
      findClose p l = some (content, rest') → l = content ++ '$' :: rest'
  | _, [], _, _, h => by simp [findClose] at h
  | p, c :: rest, content, rest', h => by
    rw [findClose] at h
    split at h
    · simp only [Option.some.injEq, Prod.mk.injEq] at h
      obtain ⟨h1, h2⟩ := h
      rename_i hcond
      rw [← h1, ← h2, List.nil_append, hcond.1]
    · cases hrec : findClose c rest with
      | none => rw [hrec] at h; simp at h
      | some pr =>
        obtain ⟨c', r'⟩ := pr
        rw [hrec] at h
        simp only [Option.some.injEq, Prod.mk.injEq] at h
        obtain ⟨h1, h2⟩ := h
        have hb := findClose_eq_append c rest c' r' hrec
        rw [← h1, ← h2, List.cons_append, ← hb]

theorem findClose_rejects :
    ∀ (p : Char) (l content rest' : List Char),
      findClose p l = some (content, rest') → interiorRejects p content
  | _, [], _, _, h => by simp [findClose] at h
  | p, c :: rest, content, rest', h => by
    rw [findClose] at h
    split at h
    · simp only [Option.some.injEq, Prod.mk.injEq] at h
      obtain ⟨h1, _⟩ := h
      intro u v huv
      rw [← h1] at huv
      simp at huv
    · rename_i hcond
      cases hrec : findClose c rest with
      | none => rw [hrec] at h; simp at h
      | some pr =>
        obtain ⟨c', r'⟩ := pr
        rw [hrec] at h
        simp only [Option.some.injEq, Prod.mk.injEq] at h
        obtain ⟨h1, _⟩ := h
        intro u v huv
        rw [← h1] at huv
        cases u with
        | nil =>
          simp only [List.nil_append, List.cons.injEq] at huv
          obtain ⟨rfl, rfl⟩ := huv
          simp only [List.getLastD_nil]
          by_cases hp1 : p = '\\'
          · exact Or.inl hp1
          by_cases hp2 : p = '$'
          · exact Or.inr (Or.inl hp2)
          have hr : rest.head? = some '$' := by
            by_contra hr
            exact hcond ⟨rfl, hp1, hp2, hr⟩
          refine Or.inr (Or.inr ?_)
          have hb := findClose_eq_append '$' rest c' r' hrec
          cases c' with
          | nil => rfl
          | cons x xs =>
            rw [hb] at hr
            simp only [List.cons_append, List.head?_cons,
              Option.some.injEq] at hr
            simp [hr]
        | cons x u' =>
          simp only [List.cons_append, List.cons.injEq] at huv
          obtain ⟨rfl, huv2⟩ := huv
          have ih := findClose_rejects c rest c' r' hrec u' v huv2
          rw [List.getLastD_cons]
          exact ih

theorem findClose_none_of_no_dollar :
    ∀ (p : Char) (l : List Char), '$' ∉ l → findClose p l = none
  | _, [], _ => rfl
  | p, c :: rest, h => by
    rw [findClose]
    have hc : c ≠ '$' := fun he => h (he ▸ List.mem_cons_self c rest)
    rw [if_neg (fun hx => hc hx.1)]
    rw [findClose_none_of_no_dollar c rest
      (fun hm => h (List.mem_cons_of_mem c hm))]

-- ─────────────────────────────────────────────
--  Scanner step equations
-- ─────────────────────────────────────────────

theorem scanTwoF_step_found {o1 o2 c1 c2 a b : Char}
    {mk : Nat → List Char → MathExpr} {fuel : Nat}
    {rest content rest' : List Char} {es : List MathExpr}
    (h1 : a = o1 ∧ b = o2)
    (h2 : findClose2 c1 c2 rest = some (content, rest')) :
    scanTwoF o1 o2 c1 c2 mk (fuel + 1) (a :: b :: rest) es =
      ((mk es.length content).placeholder ++
        (scanTwoF o1 o2 c1 c2 mk fuel rest' (es ++ [mk es.length content])).1,
       (scanTwoF o1 o2 c1 c2 mk fuel rest' (es ++ [mk es.length content])).2)
    := by
  rw [scanTwoF, if_pos h1, h2]

theorem scanTwoF_step_none {o1 o2 c1 c2 a b : Char}
    {mk : Nat → List Char → MathExpr} {fuel : Nat}
    {rest : List Char} {es : List MathExpr}
    (h1 : a = o1 ∧ b = o2) (h2 : findClose2 c1 c2 rest = none) :
    scanTwoF o1 o2 c1 c2 mk (fuel + 1) (a :: b :: rest) es =
      (a :: (scanTwoF o1 o2 c1 c2 mk fuel (b :: rest) es).1,
       (scanTwoF o1 o2 c1 c2 mk fuel (b :: rest) es).2) := by
  rw [scanTwoF, if_pos h1, h2]

theorem scanTwoF_step_other {o1 o2 c1 c2 a b : Char}
    {mk : Nat → List Char → MathExpr} {fuel : Nat}
    {rest : List Char} {es : List MathExpr} (h1 : ¬(a = o1 ∧ b = o2)) :
    scanTwoF o1 o2 c1 c2 mk (fuel + 1) (a :: b :: rest) es =
      (a :: (scanTwoF o1 o2 c1 c2 mk fuel (b :: rest) es).1,
       (scanTwoF o1 o2 c1 c2 mk fuel (b :: rest) es).2) := by
  rw [scanTwoF, if_neg h1]

theorem scanOneF_step_found {prev : Option Char} {fuel : Nat}
    {rest content rest' : List Char} {es : List MathExpr}
    (hg : prev ≠ some '$' ∧ prev ≠ some '\\' ∧ rest.head? ≠ some '$')
    (h2 : findClose '$' rest = some (content, rest')) :
    scanOneF (fuel + 1) prev ('$' :: rest) es =
      ((mkInline es.length content).placeholder ++
        (scanOneF fuel (some '$') rest' (es ++ [mkInline es.length content])).1,
       (scanOneF fuel (some '$') rest' (es ++ [mkInline es.length content])).2)
    := by
  rw [scanOneF, if_pos ⟨rfl, hg.1, hg.2.1, hg.2.2⟩, h2]

theorem scanOneF_step_none {prev : Option Char} {fuel : Nat}
    {rest : List Char} {es : List MathExpr}
    (hg : prev ≠ some '$' ∧ prev ≠ some '\\' ∧ rest.head? ≠ some '$')
    (h2 : findClose '$' rest = none) :
    scanOneF (fuel + 1) prev ('$' :: rest) es =
      ('$' :: (scanOneF fuel (some '$') rest es).1,
       (scanOneF fuel (some '$') rest es).2) := by
  rw [scanOneF, if_pos ⟨rfl, hg.1, hg.2.1, hg.2.2⟩, h2]

theorem scanOneF_step_other {prev : Option Char} {fuel : Nat} {c : Char}
    {rest : List Char} {es : List MathExpr}
    (hg : ¬(c = '$' ∧ prev ≠ some '$' ∧ prev ≠ some '\\' ∧
      rest.head? ≠ some '$')) :
    scanOneF (fuel + 1) prev (c :: rest) es =
      (c :: (scanOneF fuel (some c) rest es).1,
       (scanOneF fuel (some c) rest es).2) := by
  rw [scanOneF, if_neg hg]

-- ─────────────────────────────────────────────
--  Scanner structure lemmas
-- ─────────────────────────────────────────────

theorem scanTwoF_mem (o1 o2 c1 c2 : Char) (mk : Nat → List Char → MathExpr) :
    ∀ (fuel : Nat) (t : List Char) (es : List MathExpr) (e : MathExpr),
      e ∈ (scanTwoF o1 o2 c1 c2 mk fuel t es).2 →
      e ∈ es ∨ ∃ idx raw, e = mk idx raw ∧ ¬∃ u v, raw = u ++ c1 :: c2 :: v
  | 0, _, _, _, h => Or.inl h
  | _ + 1, [], _, _, h => Or.inl h
  | _ + 1, [_], _, _, h => Or.inl h
  | fuel + 1, a :: b :: rest, es, e, h => by
    by_cases h1 : a = o1 ∧ b = o2
    · cases hrec : findClose2 c1 c2 rest with
      | some pr =>
        obtain ⟨content, rest'⟩ := pr
        rw [scanTwoF_step_found h1 hrec] at h
        rcases scanTwoF_mem o1 o2 c1 c2 mk fuel rest'
          (es ++ [mk es.length content]) e h with h2 | h2
        · rcases List.mem_append.mp h2 with h3 | h3
          · exact Or.inl h3
          · refine Or.inr ⟨es.length, content, List.mem_singleton.mp h3, ?_⟩
            exact findClose2_no_pair c1 c2 rest content rest' hrec
        · exact Or.inr h2
      | none =>
        rw [scanTwoF_step_none h1 hrec] at h
        exact scanTwoF_mem o1 o2 c1 c2 mk fuel (b :: rest) es e h
    · rw [scanTwoF_step_other h1] at h
      exact scanTwoF_mem o1 o2 c1 c2 mk fuel (b :: rest) es e h

theorem scanOneF_mem :
    ∀ (fuel : Nat) (prev : Option Char) (t : List Char) (es : List MathExpr)
      (e : MathExpr),
      e ∈ (scanOneF fuel prev t es).2 →
      e ∈ es ∨ ∃ idx raw, e = mkInline idx raw ∧ interiorRejects '$' raw
  | 0, _, _, _, _, h => Or.inl h
  | _ + 1, _, [], _, _, h => Or.inl h
  | fuel + 1, prev, c :: rest, es, e, h => by
    by_cases h1 : c = '$' ∧ prev ≠ some '$' ∧ prev ≠ some '\\' ∧
        rest.head? ≠ some '$'
    · obtain ⟨rfl, hg⟩ := h1
      cases hrec : findClose '$' rest with
      | some pr =>
        obtain ⟨content, rest'⟩ := pr
        rw [scanOneF_step_found hg hrec] at h
        rcases scanOneF_mem fuel (some '$') rest'
          (es ++ [mkInline es.length content]) e h with h2 | h2
        · rcases List.mem_append.mp h2 with h3 | h3
          · exact Or.inl h3
          · refine Or.inr ⟨es.length, content, List.mem_singleton.mp h3, ?_⟩
            exact findClose_rejects '$' rest content rest' hrec
        · exact Or.inr h2
      | none =>
        rw [scanOneF_step_none hg hrec] at h
        exact scanOneF_mem fuel (some '$') rest es e h
    · rw [scanOneF_step_other h1] at h
      exact scanOneF_mem fuel (some c) rest es e h

theorem scanTwoF_len_ge (o1 o2 c1 c2 : Char)
    (mk : Nat → List Char → MathExpr) :
    ∀ (fuel : Nat) (t : List Char) (es : List MathExpr),
      es.length ≤ (scanTwoF o1 o2 c1 c2 mk fuel t es).2.length
  | 0, _, _ => Nat.le_refl _
  | _ + 1, [], _ => Nat.le_refl _
  | _ + 1, [_], _ => Nat.le_refl _
  | fuel + 1, a :: b :: rest, es => by
    by_cases h1 : a = o1 ∧ b = o2
    · cases hrec : findClose2 c1 c2 rest with
      | some pr =>
        obtain ⟨content, rest'⟩ := pr
        rw [scanTwoF_step_found h1 hrec]
        dsimp only
        have := scanTwoF_len_ge o1 o2 c1 c2 mk fuel rest'
          (es ++ [mk es.length content])
        rw [List.length_append] at this
        simp only [List.length_singleton] at this
        omega
      | none =>
        rw [scanTwoF_step_none h1 hrec]
        exact scanTwoF_len_ge o1 o2 c1 c2 mk fuel (b :: rest) es
    · rw [scanTwoF_step_other h1]
      exact scanTwoF_len_ge o1 o2 c1 c2 mk fuel (b :: rest) es

theorem scanOneF_len_ge :
    ∀ (fuel : Nat) (prev : Option Char) (t : List Char) (es : List MathExpr),
      es.length ≤ (scanOneF fuel prev t es).2.length
  | 0, _, _, _ => Nat.le_refl _
  | _ + 1, _, [], _ => Nat.le_refl _
  | fuel + 1, prev, c :: rest, es => by
    by_cases h1 : c = '$' ∧ prev ≠ some '$' ∧ prev ≠ some '\\' ∧
        rest.head? ≠ some '$'
    · obtain ⟨rfl, hg⟩ := h1
      cases hrec : findClose '$' rest with
      | some pr =>
        obtain ⟨content, rest'⟩ := pr
        rw [scanOneF_step_found hg hrec]
        dsimp only
        have := scanOneF_len_ge fuel (some '$') rest'
          (es ++ [mkInline es.length content])
        rw [List.length_append] at this
        simp only [List.length_singleton] at this
        omega
      | none =>
        rw [scanOneF_step_none hg hrec]
        exact scanOneF_len_ge fuel (some '$') rest es
    · rw [scanOneF_step_other h1]
      exact scanOneF_len_ge fuel (some c) rest es

theorem spanListOK_append {es : List MathExpr} {e : MathExpr} {b : Bool}
    (h : SpanListOK es) (he : e.placeholder = mkPh b es.length) :
    SpanListOK (es ++ [e]) := by
  intro i hi
  rw [List.length_append, List.length_singleton] at hi
  by_cases hlt : i < es.length
  · obtain ⟨b', hb'⟩ := h i hlt
    refine ⟨b', ?_⟩
    rw [List.get_append_left]
    exact hb'
  · have hieq : i = es.length := by omega
    refine ⟨b, ?_⟩
    have : (es ++ [e]).get
        ⟨i, by rw [List.length_append, List.length_singleton]; omega⟩ = e := by
      apply List.get_last
      simp only [Fin.val_mk]
      omega
    rw [this, he, hieq]

theorem scanTwoF_spanListOK (o1 o2 c1 c2 : Char)
    (mk : Nat → List Char → MathExpr)
    (hmk : ∀ idx raw, ∃ b, (mk idx raw).placeholder = mkPh b idx) :
    ∀ (fuel : Nat) (t : List Char) (es : List MathExpr),
      SpanListOK es → SpanListOK (scanTwoF o1 o2 c1 c2 mk fuel t es).2
  | 0, _, _, h => h
  | _ + 1, [], _, h => h
  | _ + 1, [_], _, h => h
  | fuel + 1, a :: b :: rest, es, h => by
    by_cases h1 : a = o1 ∧ b = o2
    · cases hrec : findClose2 c1 c2 rest with
      | some pr =>
        obtain ⟨content, rest'⟩ := pr
        rw [scanTwoF_step_found h1 hrec]
        apply scanTwoF_spanListOK o1 o2 c1 c2 mk hmk fuel rest'
        obtain ⟨bb, hbb⟩ := hmk es.length content
        exact spanListOK_append h hbb
      | none =>
        rw [scanTwoF_step_none h1 hrec]
        exact scanTwoF_spanListOK o1 o2 c1 c2 mk hmk fuel (b :: rest) es h
    · rw [scanTwoF_step_other h1]
      exact scanTwoF_spanListOK o1 o2 c1 c2 mk hmk fuel (b :: rest) es h

theorem mkInline_ph (idx : Nat) (raw : List Char) :
    ∃ b, (mkInline idx raw).placeholder = mkPh b idx := by
  unfold mkInline
  split
  · exact ⟨true, rfl⟩
  · exact ⟨false, rfl⟩

theorem scanOneF_spanListOK :
    ∀ (fuel : Nat) (prev : Option Char) (t : List Char) (es : List MathExpr),
      SpanListOK es → SpanListOK (scanOneF fuel prev t es).2
  | 0, _, _, _, h => h
  | _ + 1, _, [], _, h => h
  | fuel + 1, prev, c :: rest, es, h => by
    by_cases h1 : c = '$' ∧ prev ≠ some '$' ∧ prev ≠ some '\\' ∧
        rest.head? ≠ some '$'
    · obtain ⟨rfl, hg⟩ := h1
      cases hrec : findClose '$' rest with
      | some pr =>
        obtain ⟨content, rest'⟩ := pr
        rw [scanOneF_step_found hg hrec]
        apply scanOneF_spanListOK fuel (some '$') rest'
        obtain ⟨bb, hbb⟩ := mkInline_ph es.length content
        exact spanListOK_append h hbb
      | none =>
        rw [scanOneF_step_none hg hrec]
        exact scanOneF_spanListOK fuel (some '$') rest es h
    · rw [scanOneF_step_other h1]
      exact scanOneF_spanListOK fuel (some c) rest es h

-- ─────────────────────────────────────────────
--  Identity on delimiter-free text
-- ─────────────────────────────────────────────

theorem scanTwoF_id (o1 o2 c1 c2 : Char) (mk : Nat → List Char → MathExpr) :
    ∀ (fuel : Nat) (t : List Char) (es : List MathExpr),
      (¬∃ u v w, t = u ++ o1 :: o2 :: (v ++ c1 :: c2 :: w)) →
      scanTwoF o1 o2 c1 c2 mk fuel t es = (t, es)
  | 0, _, _, _ => rfl
  | _ + 1, [], _, _ => rfl
  | _ + 1, [_], _, _ => rfl
  | fuel + 1, a :: b :: rest, es, h => by
    by_cases h1 : a = o1 ∧ b = o2
    · cases hrec : findClose2 c1 c2 rest with
      | some pr =>
        exfalso
        obtain ⟨content, rest'⟩ := pr
        obtain ⟨rfl, rfl⟩ := h1
        exact h ⟨[], content, rest', by
          rw [findClose2_eq_append c1 c2 rest content rest' hrec]
          rfl⟩
      | none =>
        rw [scanTwoF_step_none h1 hrec,
          scanTwoF_id o1 o2 c1 c2 mk fuel (b :: rest) es
            (fun ⟨u, v, w, huvw⟩ => h ⟨a :: u, v, w, by rw [huvw]; rfl⟩)]
    · rw [scanTwoF_step_other h1,
        scanTwoF_id o1 o2 c1 c2 mk fuel (b :: rest) es
          (fun ⟨u, v, w, huvw⟩ => h ⟨a :: u, v, w, by rw [huvw]; rfl⟩)]

theorem scanOneF_id :
    ∀ (fuel : Nat) (prev : Option Char) (t : List Char) (es : List MathExpr),
      List.count '$' t ≤ 1 → scanOneF fuel prev t es = (t, es)
  | 0, _, _, _, _ => rfl
  | _ + 1, _, [], _, _ => rfl
  | fuel + 1, prev, c :: rest, es, h => by
    by_cases h1 : c = '$' ∧ prev ≠ some '$' ∧ prev ≠ some '\\' ∧
        rest.head? ≠ some '$'
    · obtain ⟨rfl, hg⟩ := h1
      have hcnt : List.count '$' rest = 0 := by
        have := List.count_cons '$' '$' rest
        simp only [beq_self_eq_true, if_true] at this
        rw [this] at h
        omega
      have hnd : '$' ∉ rest := List.count_eq_zero.mp hcnt
      rw [scanOneF_step_none hg (findClose_none_of_no_dollar '$' rest hnd),
        scanOneF_id fuel (some '$') rest es (by omega)]
    · have hle : List.count '$' rest ≤ 1 := by
        have := List.count_cons '$' c rest
        rw [this] at h
        split at h <;> omega
      rw [scanOneF_step_other h1, scanOneF_id fuel (some c) rest es hle]

-- ─────────────────────────────────────────────
--  Span constructor facts
-- ─────────────────────────────────────────────

theorem mkDollarDollar_content (idx : Nat) (raw : List Char) :
    rustTrim (mkDollarDollar idx raw).content = (mkDollarDollar idx raw).content
    := rustTrim_idem raw

theorem mkBracket_content (idx : Nat) (raw : List Char) :
    rustTrim (mkBracket idx raw).content = (mkBracket idx raw).content :=
  rustTrim_idem raw

theorem mkParen_content (idx : Nat) (raw : List Char) :
    rustTrim (mkParen idx raw).content = (mkParen idx raw).content := by
  by_cases h : '\n' ∈ rustTrim raw <;>
    simp only [mkParen, h, if_true, if_false, reduceIte] <;>
    exact rustTrim_idem raw

theorem mkInline_content (idx : Nat) (raw : List Char) :
    rustTrim (mkInline idx raw).content = (mkInline idx raw).content := by
  unfold mkInline
  split <;> exact rustTrim_idem raw

theorem mkParen_kind (idx : Nat) (raw : List Char) :
    (mkParen idx raw).kind = MathKind.Block ↔
      '\n' ∈ (mkParen idx raw).content := by
  by_cases h : '\n' ∈ rustTrim raw <;> simp [mkParen, h]

theorem mkInline_kind (idx : Nat) (raw : List Char) :
    ((mkInline idx raw).kind = MathKind.Block ↔ '\n' ∈ raw) ∧
      (mkInline idx raw).content = rustTrim raw := by
  unfold mkInline
  split
  · rename_i h
    exact ⟨⟨fun _ => h, fun _ => rfl⟩, rfl⟩
  · rename_i h
    exact ⟨⟨fun hk => MathKind.noConfusion hk, fun hm => absurd hm h⟩, rfl⟩

theorem mkDollarDollar_ph (idx : Nat) (raw : List Char) :
    ∃ b, (mkDollarDollar idx raw).placeholder = mkPh b idx := ⟨true, rfl⟩

theorem mkBracket_ph (idx : Nat) (raw : List Char) :
    ∃ b, (mkBracket idx raw).placeholder = mkPh b idx := ⟨true, rfl⟩

theorem countOcc_le_cons (p : List Char) (c : Char) (l : List Char) :
    countOcc p l ≤ countOcc p (c :: l) := by
  rw [countOcc_cons]
  omega

theorem countOcc_le_append_left {p : List Char} (hp : p ≠ [])
    (v w : List Char) : countOcc p w ≤ countOcc p (v ++ w) := by
  have := countOcc_append_ge hp v w
  omega

theorem scanTwoF_countOcc (o1 o2 c1 c2 : Char)
    (mk : Nat → List Char → MathExpr)
    (hmk : ∀ idx raw, ∃ bb, (mk idx raw).placeholder = mkPh bb idx)
    (b : Bool) (n : Nat) :
    ∀ (fuel : Nat) (t : List Char) (es : List MathExpr) (x : List Char),
      countOcc (mkPh b n) (x ++ (scanTwoF o1 o2 c1 c2 mk fuel t es).1) ≤
        countOcc (mkPh b n) (x ++ t) +
          (if es.length ≤ n ∧
              n < (scanTwoF o1 o2 c1 c2 mk fuel t es).2.length
           then 1 else 0)
  | 0, t, es, x => Nat.le_add_right _ _
  | _ + 1, [], es, x => Nat.le_add_right _ _
  | _ + 1, [_], es, x => Nat.le_add_right _ _
  | fuel + 1, a :: c :: rest, es, x => by
    have hpne : mkPh b n ≠ [] := mkPh_ne_nil b n
    by_cases h1 : a = o1 ∧ c = o2
    · cases hrec : findClose2 c1 c2 rest with
      | some pr =>
        obtain ⟨content, rest'⟩ := pr
        rw [scanTwoF_step_found h1 hrec]
        dsimp only
        obtain ⟨bb, hbb⟩ := hmk es.length content
        have ih := scanTwoF_countOcc o1 o2 c1 c2 mk hmk b n fuel rest'
          (es ++ [mk es.length content]) (x ++ (mk es.length content).placeholder)
        simp only [List.append_assoc] at ih
        have hmid : countOcc (mkPh b n)
            (x ++ ((mk es.length content).placeholder ++ rest')) ≤
              countOcc (mkPh b n) x +
                (if b = bb ∧ n = es.length then 1 else 0) +
                countOcc (mkPh b n) rest' := by
          rw [hbb]
          exact countOcc_mkPh_mid b bb n es.length x rest'
        have hrest : countOcc (mkPh b n) x + countOcc (mkPh b n) rest' ≤
            countOcc (mkPh b n) (x ++ a :: c :: rest) := by
        -- rest = content ++ c1 :: c2 :: rest', so rest' occurs at the tail
          have hr := findClose2_eq_append c1 c2 rest content rest' hrec
          have h2 : countOcc (mkPh b n) rest' ≤
              countOcc (mkPh b n) (a :: c :: rest) := by
            rw [hr]
            calc countOcc (mkPh b n) rest'
                ≤ countOcc (mkPh b n) (c2 :: rest') := countOcc_le_cons _ _ _
              _ ≤ countOcc (mkPh b n) (c1 :: c2 :: rest') :=
                  countOcc_le_cons _ _ _
              _ ≤ countOcc (mkPh b n) (content ++ c1 :: c2 :: rest') :=
                  countOcc_le_append_left hpne _ _
              _ ≤ countOcc (mkPh b n) (c :: (content ++ c1 :: c2 :: rest')) :=
                  countOcc_le_cons _ _ _
              _ ≤ countOcc (mkPh b n)
                    (a :: c :: (content ++ c1 :: c2 :: rest')) :=
                  countOcc_le_cons _ _ _
          have h3 := countOcc_append_ge hpne x (a :: c :: rest)
          have h4 := countOcc_append_ge hpne x rest'
          -- combine: occurrences in x plus occurrences in rest' fit in x ++ t
          -- we only need the stated sum bound
          calc countOcc (mkPh b n) x + countOcc (mkPh b n) rest'
              ≤ countOcc (mkPh b n) x + countOcc (mkPh b n) (a :: c :: rest) :=
                by omega
            _ ≤ countOcc (mkPh b n) (x ++ a :: c :: rest) := by omega
        have hlen := scanTwoF_len_ge o1 o2 c1 c2 mk fuel rest'
          (es ++ [mk es.length content])
        rw [List.length_append, List.length_singleton] at hlen
        set L := (scanTwoF o1 o2 c1 c2 mk fuel rest'
          (es ++ [mk es.length content])).2.length with hL
        by_cases hcase : b = bb ∧ n = es.length
        · have hind1 : (if b = bb ∧ n = es.length then 1 else 0) = 1 :=
            if_pos hcase
          have hind2 : (if (es ++ [mk es.length content]).length ≤ n ∧ n < L
              then 1 else 0) = 0 := by
            rw [if_neg]
            rintro ⟨hc1, _⟩
            rw [List.length_append, List.length_singleton] at hc1
            omega
          have hind3 : (if es.length ≤ n ∧ n < L then 1 else 0) = 1 := by
            rw [if_pos]
            exact ⟨hcase.2.ge, by omega⟩
          rw [hind2] at ih
          rw [hind3]
          omega
        · have hind1 : (if b = bb ∧ n = es.length then 1 else 0) = 0 :=
            if_neg hcase
          rw [hind1] at hmid
          by_cases hcase2 : (es ++ [mk es.length content]).length ≤ n ∧ n < L
          · rw [if_pos hcase2] at ih
            have hind3 : (if es.length ≤ n ∧ n < L then 1 else 0) = 1 := by
              rw [if_pos]
              have := hcase2.1
              rw [List.length_append, List.length_singleton] at this
              exact ⟨by omega, hcase2.2⟩
            rw [hind3]
            omega
          · rw [if_neg hcase2] at ih
            have hge : (0:Nat) ≤ if es.length ≤ n ∧ n < L then 1 else 0 := by
              omega
            split <;> omega
      | none =>
        rw [scanTwoF_step_none h1 hrec]
        dsimp only
        have ih := scanTwoF_countOcc o1 o2 c1 c2 mk hmk b n fuel (c :: rest)
          es (x ++ [a])
        rw [List.append_assoc, List.append_assoc, List.singleton_append] at ih
        exact ih
    · rw [scanTwoF_step_other h1]
      dsimp only
      have ih := scanTwoF_countOcc o1 o2 c1 c2 mk hmk b n fuel (c :: rest)
        es (x ++ [a])
      rw [List.append_assoc, List.append_assoc, List.singleton_append] at ih
      exact ih

theorem scanOneF_countOcc (b : Bool) (n : Nat) :
    ∀ (fuel : Nat) (prev : Option Char) (t : List Char) (es : List MathExpr)
      (x : List Char),
      countOcc (mkPh b n) (x ++ (scanOneF fuel prev t es).1) ≤
        countOcc (mkPh b n) (x ++ t) +
          (if es.length ≤ n ∧ n < (scanOneF fuel prev t es).2.length
           then 1 else 0)
  | 0, prev, t, es, x => Nat.le_add_right _ _
  | _ + 1, prev, [], es, x => Nat.le_add_right _ _
  | fuel + 1, prev, c :: rest, es, x => by
    have hpne : mkPh b n ≠ [] := mkPh_ne_nil b n
    by_cases h1 : c = '$' ∧ prev ≠ some '$' ∧ prev ≠ some '\\' ∧
        rest.head? ≠ some '$'
    · obtain ⟨rfl, hg⟩ := h1
      cases hrec : findClose '$' rest with
      | some pr =>
        obtain ⟨content, rest'⟩ := pr
        rw [scanOneF_step_found hg hrec]
        dsimp only
        obtain ⟨bb, hbb⟩ := mkInline_ph es.length content
        have ih := scanOneF_countOcc b n fuel (some '$') rest'
          (es ++ [mkInline es.length content])
          (x ++ (mkInline es.length content).placeholder)
        simp only [List.append_assoc] at ih
        have hmid : countOcc (mkPh b n)
            (x ++ ((mkInline es.length content).placeholder ++ rest')) ≤
              countOcc (mkPh b n) x +
                (if b = bb ∧ n = es.length then 1 else 0) +
                countOcc (mkPh b n) rest' := by
          rw [hbb]
          exact countOcc_mkPh_mid b bb n es.length x rest'
        have hrest : countOcc (mkPh b n) x + countOcc (mkPh b n) rest' ≤
            countOcc (mkPh b n) (x ++ '$' :: rest) := by
          have hr := findClose_eq_append '$' rest content rest' hrec
          have h2 : countOcc (mkPh b n) rest' ≤
              countOcc (mkPh b n) ('$' :: rest) := by
            rw [hr]
            calc countOcc (mkPh b n) rest'
                ≤ countOcc (mkPh b n) ('$' :: rest') := countOcc_le_cons _ _ _
              _ ≤ countOcc (mkPh b n) (content ++ '$' :: rest') :=
                  countOcc_le_append_left hpne _ _
              _ ≤ countOcc (mkPh b n) ('$' :: (content ++ '$' :: rest')) :=
                  countOcc_le_cons _ _ _
          have h3 := countOcc_append_ge hpne x ('$' :: rest)
          calc countOcc (mkPh b n) x + countOcc (mkPh b n) rest'
              ≤ countOcc (mkPh b n) x + countOcc (mkPh b n) ('$' :: rest) :=
                by omega
            _ ≤ countOcc (mkPh b n) (x ++ '$' :: rest) := by omega
        have hlen := scanOneF_len_ge fuel (some '$') rest'
          (es ++ [mkInline es.length content])
        rw [List.length_append, List.length_singleton] at hlen
        set L := (scanOneF fuel (some '$') rest'
          (es ++ [mkInline es.length content])).2.length with hL
        by_cases hcase : b = bb ∧ n = es.length
        · have hind2 : (if (es ++ [mkInline es.length content]).length ≤ n ∧
              n < L then 1 else 0) = 0 := by
            rw [if_neg]
            rintro ⟨hc1, _⟩
            rw [List.length_append, List.length_singleton] at hc1
            omega
          have hind3 : (if es.length ≤ n ∧ n < L then 1 else 0) = 1 := by
            rw [if_pos]
            exact ⟨hcase.2.ge, by omega⟩
          rw [hind2] at ih
          rw [hind3]
          have hind1 : (if b = bb ∧ n = es.length then 1 else 0) = 1 :=
            if_pos hcase
          omega
        · have hind1 : (if b = bb ∧ n = es.length then 1 else 0) = 0 :=
            if_neg hcase
          rw [hind1] at hmid
          by_cases hcase2 : (es ++ [mkInline es.length content]).length ≤ n ∧
              n < L
          · rw [if_pos hcase2] at ih
            have hind3 : (if es.length ≤ n ∧ n < L then 1 else 0) = 1 := by
              rw [if_pos]
              have := hcase2.1
              rw [List.length_append, List.length_singleton] at this
              exact ⟨by omega, hcase2.2⟩
            rw [hind3]
            omega
          · rw [if_neg hcase2] at ih
            split <;> omega
      | none =>
        rw [scanOneF_step_none hg hrec]
        dsimp only
        have ih := scanOneF_countOcc b n fuel (some '$') rest es (x ++ ['$'])
        rw [List.append_assoc, List.append_assoc, List.singleton_append] at ih
        exact ih
    · rw [scanOneF_step_other h1]
      dsimp only
      have ih := scanOneF_countOcc b n fuel (some c) rest es (x ++ [c])
      rw [List.append_assoc, List.append_assoc, List.singleton_append] at ih
      exact ih

theorem mkParen_ph (idx : Nat) (raw : List Char) :
    ∃ b, (mkParen idx raw).placeholder = mkPh b idx := by
  by_cases h : '\n' ∈ rustTrim raw
  · simp only [mkParen, h, if_true, reduceIte]
    exact ⟨true, rfl⟩
  · simp only [mkParen, h, if_false, reduceIte]
    exact ⟨false, rfl⟩

-- ─────────────────────────────────────────────
--  `replacen(pat, rep, 1)` lemmas
-- ─────────────────────────────────────────────

theorem replacen1_no_occ {pat : List Char} (hp : pat ≠ []) (rep : List Char) :
    ∀ s : List Char,
      (∀ i, i < s.length → ¬ pat.isPrefixOf (s.drop i) = true) →
      replacen1 pat rep s = s
  | [], _ => by
    rw [replacen1,
      if_neg (fun hx =>
        hp (List.prefix_nil.mp (List.isPrefixOf_iff_prefix.mp hx)))]
  | c :: rest, h => by
    rw [replacen1, if_neg (by simpa using h 0 (by simp)),
      replacen1_no_occ hp rep rest (fun i hi => by
        have := h (i + 1) (by simpa using hi)
        simpa using this)]

theorem replacen1_first {pat : List Char} (hp : pat ≠ []) (rep : List Char) :
    ∀ (u v : List Char),
      (∀ i, i < u.length → ¬ pat.isPrefixOf ((u ++ (pat ++ v)).drop i) = true) →
      replacen1 pat rep (u ++ (pat ++ v)) = u ++ (rep ++ v)
  | [], v, _ => by
    simp only [List.nil_append]
    cases hpat : pat with
    | nil => exact absurd hpat hp
    | cons p0 ptail =>
      rw [← hpat]
      have hs : pat ++ v = p0 :: (ptail ++ v) := by rw [hpat]; rfl
      rw [hs, replacen1, ← hs,
        if_pos (List.isPrefixOf_iff_prefix.mpr (List.prefix_append pat v))]
      rw [List.drop_left]
  | a :: u', v, h => by
    have hs : (a :: u') ++ (pat ++ v) = a :: (u' ++ (pat ++ v)) := rfl
    rw [hs, replacen1, if_neg (by simpa using h 0 (by simp)),
      replacen1_first hp rep u' v (fun i hi => by
        have := h (i + 1) (by simpa using hi)
        simpa using this)]
    rfl

-- ─────────────────────────────────────────────
--  Byte-level UTF-8 lemmas
-- ─────────────────────────────────────────────

theorem findCloseB_eq_append :
    ∀ (p : Nat) (l content rest' : List Nat),
      findCloseB p l = some (content, rest') → l = content ++ 36 :: rest'
  | _, [], _, _, h => by simp [findCloseB] at h
  | p, c :: rest, content, rest', h => by
    rw [findCloseB] at h
    split at h
    · simp only [Option.some.injEq, Prod.mk.injEq] at h
      obtain ⟨h1, h2⟩ := h
      rename_i hcond
      rw [← h1, ← h2, List.nil_append, hcond.1]
    · cases hrec : findCloseB c rest with
      | none => rw [hrec] at h; simp at h
      | some pr =>
        obtain ⟨c', r'⟩ := pr
        rw [hrec] at h
        simp only [Option.some.injEq, Prod.mk.injEq] at h
        obtain ⟨h1, h2⟩ := h
        have hb := findCloseB_eq_append c rest c' r' hrec
        rw [← h1, ← h2, List.cons_append, ← hb]

theorem validUtf8_head_not_cont {b : Nat} {rest : List Nat}
    (h : ValidUtf8 (b :: rest)) : ¬ isContByte b := by
  unfold isContByte
  cases h with
  | ascii h1 _ => omega
  | two h1 h2 _ _ => omega
  | three h1 h2 _ _ _ => omega
  | four h1 h2 _ _ _ _ => omega

theorem validUtf8_ascii_tail {b : Nat} {rest : List Nat}
    (h : ValidUtf8 (b :: rest)) (hb : b < 128) : ValidUtf8 rest := by
  cases h with
  | ascii _ h2 => exact h2
  | two h1 _ _ _ => omega
  | three h1 _ _ _ _ => omega
  | four h1 _ _ _ _ _ => omega

theorem validUtf8_mid_lt {l : List Nat} (h : ValidUtf8 l) :
    ∀ (xs : List Nat) (b : Nat) (ys : List Nat),
      l = xs ++ b :: ys → b < 128 → ValidUtf8 (b :: ys) := by
  induction h with
  | nil =>
    intro xs b ys heq _
    exact absurd heq.symm (by simp)
  | ascii h1 h2 ih =>
    intro xs b ys heq hlt
    cases xs with
    | nil =>
      simp only [List.nil_append, List.cons.injEq] at heq
      obtain ⟨rfl, rfl⟩ := heq
      exact ValidUtf8.ascii h1 h2
    | cons x xs' =>
      simp only [List.cons_append, List.cons.injEq] at heq
      exact ih xs' b ys heq.2 hlt
  | two h1 h2 hc h3 ih =>
    intro xs b ys heq hlt
    cases xs with
    | nil =>
      simp only [List.nil_append, List.cons.injEq] at heq
      obtain ⟨rfl, _⟩ := heq
      omega
    | cons x xs' =>
      simp only [List.cons_append, List.cons.injEq] at heq
      obtain ⟨_, heq2⟩ := heq
      cases xs' with
      | nil =>
        simp only [List.nil_append, List.cons.injEq] at heq2
        obtain ⟨rfl, _⟩ := heq2
        unfold isContByte at hc
        omega
      | cons x' xs'' =>
        simp only [List.cons_append, List.cons.injEq] at heq2
        exact ih xs'' b ys heq2.2 hlt
  | three h1 h2 hc1 hc2 h3 ih =>
    intro xs b ys heq hlt
    cases xs with
    | nil =>
      simp only [List.nil_append, List.cons.injEq] at heq
      obtain ⟨rfl, _⟩ := heq
      omega
    | cons x xs' =>
      simp only [List.cons_append, List.cons.injEq] at heq
      obtain ⟨_, heq2⟩ := heq
      cases xs' with
      | nil =>
        simp only [List.nil_append, List.cons.injEq] at heq2
        obtain ⟨rfl, _⟩ := heq2
        unfold isContByte at hc1
        omega
      | cons x' xs'' =>
        simp only [List.cons_append, List.cons.injEq] at heq2
        obtain ⟨_, heq3⟩ := heq2
        cases xs'' with
        | nil =>
          simp only [List.nil_append, List.cons.injEq] at heq3
          obtain ⟨rfl, _⟩ := heq3
          unfold isContByte at hc2
          omega
        | cons x'' xs''' =>
          simp only [List.cons_append, List.cons.injEq] at heq3
          exact ih xs''' b ys heq3.2 hlt
  | four h1 h2 hc1 hc2 hc3 h3 ih =>
    intro xs b ys heq hlt
    cases xs with
    | nil =>
      simp only [List.nil_append, List.cons.injEq] at heq
      obtain ⟨rfl, _⟩ := heq
      omega
    | cons x xs' =>
      simp only [List.cons_append, List.cons.injEq] at heq
      obtain ⟨_, heq2⟩ := heq
      cases xs' with
      | nil =>
        simp only [List.nil_append, List.cons.injEq] at heq2
        obtain ⟨rfl, _⟩ := heq2
        unfold isContByte at hc1
        omega
      | cons x' xs'' =>
        simp only [List.cons_append, List.cons.injEq] at heq2
        obtain ⟨_, heq3⟩ := heq2
        cases xs'' with
        | nil =>
          simp only [List.nil_append, List.cons.injEq] at heq3
          obtain ⟨rfl, _⟩ := heq3
          unfold isContByte at hc2
          omega
        | cons x'' xs''' =>
          simp only [List.cons_append, List.cons.injEq] at heq3
          obtain ⟨_, heq4⟩ := heq3
          cases xs''' with
          | nil =>
            simp only [List.nil_append, List.cons.injEq] at heq4
            obtain ⟨rfl, _⟩ := heq4
            unfold isContByte at hc3
            omega
          | cons x''' xs'''' =>
            simp only [List.cons_append, List.cons.injEq] at heq4
            exact ih xs'''' b ys heq4.2 hlt

theorem validUtf8_decode {b : Nat} {rest : List Nat}
    (h : ValidUtf8 (b :: rest)) :
    ∃ len, utf8Len b = some len ∧ ValidUtf8 (rest.drop (len - 1)) := by
  cases h with
  | ascii h1 h2 =>
    refine ⟨1, ?_, ?_⟩
    · unfold utf8Len
      rw [if_pos h1]
    · simpa using h2
  | two h1 h2 hc h3 =>
    refine ⟨2, ?_, ?_⟩
    · unfold utf8Len
      rw [if_neg (by omega), if_neg (by omega), if_pos h2]
    · simpa using h3
  | three h1 h2 hc1 hc2 h3 =>
    refine ⟨3, ?_, ?_⟩
    · unfold utf8Len
      rw [if_neg (by omega), if_neg (by omega), if_neg (by omega), if_pos h2]
    · simpa using h3
  | four h1 h2 hc1 hc2 hc3 h3 =>
    refine ⟨4, ?_, ?_⟩
    · unfold utf8Len
      rw [if_neg (by omega), if_neg (by omega), if_neg (by omega),
        if_neg (by omega), if_pos h2]
    · simpa using h3

theorem isSome_map_opt {α β : Type} (f : α → β) (o : Option α) :
    (Option.map f o).isSome = o.isSome := by
  cases o <;> rfl

theorem scanOneBF_isSome :
    ∀ (fuel : Nat) (prev : Option Nat) (bs : List Nat) (k : Nat),
      ValidUtf8 bs → bs.length < fuel →
      (scanOneBF fuel prev bs k).isSome = true
  | 0, _, bs, _, _, hlen => absurd hlen (by omega)
  | _ + 1, _, [], _, _, _ => rfl
  | fuel + 1, prev, b :: rest, k, hv, hlen => by
    rw [scanOneBF]
    by_cases h1 : b = 36 ∧ prev ≠ some 36 ∧ prev ≠ some 92 ∧
        rest.head? ≠ some 36
    · rw [if_pos h1]
      obtain ⟨rfl, _⟩ := h1
      have hrest : ValidUtf8 rest := validUtf8_ascii_tail hv (by omega)
      cases hrec : findCloseB 36 rest with
      | some pr =>
        obtain ⟨content, rest'⟩ := pr
        have happ := findCloseB_eq_append 36 rest content rest' hrec
        have hrest' : ValidUtf8 rest' := by
          have h36 : ValidUtf8 (36 :: rest') :=
            validUtf8_mid_lt hrest content 36 rest' happ (by omega)
          exact validUtf8_ascii_tail h36 (by omega)
        have hlen' : rest'.length < fuel := by
          have := congrArg List.length happ
          rw [List.length_append, List.length_cons] at this
          simp only [List.length_cons] at hlen
          omega
        have hins := scanOneBF_isSome fuel (some 36) rest' (k + 1)
          hrest' hlen'
        cases content with
        | nil =>
          dsimp only
          rw [isSome_map_opt]
          exact hins
        | cons c ctail =>
          have hcnotcont : ¬ isContByte c := by
            rw [happ] at hrest
            exact validUtf8_head_not_cont hrest
          dsimp only
          rw [if_neg hcnotcont, isSome_map_opt]
          exact hins
      | none =>
        dsimp only
        rw [isSome_map_opt]
        apply scanOneBF_isSome fuel (some 36) rest k hrest
        simp only [List.length_cons] at hlen
        omega
    · rw [if_neg h1]
      have hnotcont : ¬ isContByte b := validUtf8_head_not_cont hv
      obtain ⟨len, hlen2, hvd⟩ := validUtf8_decode hv
      rw [hlen2]
      rw [isSome_map_opt]
      apply scanOneBF_isSome fuel _ _ k hvd
      have : (rest.drop (len - 1)).length ≤ rest.length := by
        rw [List.length_drop]
        omega
      simp only [List.length_cons] at hlen
      omega

-- ─────────────────────────────────────────────
--  Whole-pipeline composition lemmas
-- ─────────────────────────────────────────────

theorem process_math_expressions_def (input : List Char) :
    process_math_expressions input =
      scanTwo '\\' '(' '\\' ')' mkParen
        (scanOne none
          (scanTwo '\\' '[' '\\' ']' mkBracket
            (scanTwo '$' '$' '$' '$' mkDollarDollar input []).1
            (scanTwo '$' '$' '$' '$' mkDollarDollar input []).2).1
          (scanTwo '\\' '[' '\\' ']' mkBracket
            (scanTwo '$' '$' '$' '$' mkDollarDollar input []).1
            (scanTwo '$' '$' '$' '$' mkDollarDollar input []).2).2).1
        (scanOne none
          (scanTwo '\\' '[' '\\' ']' mkBracket
            (scanTwo '$' '$' '$' '$' mkDollarDollar input []).1
            (scanTwo '$' '$' '$' '$' mkDollarDollar input []).2).1
          (scanTwo '\\' '[' '\\' ']' mkBracket
            (scanTwo '$' '$' '$' '$' mkDollarDollar input []).1
            (scanTwo '$' '$' '$' '$' mkDollarDollar input []).2).2).2 := rfl

theorem process_mem {input : List Char} {e : MathExpr}
    (h : e ∈ (process_math_expressions input).2) :
    (∃ idx raw, e = mkDollarDollar idx raw ∧
      ¬∃ u v, raw = u ++ '$' :: '$' :: v) ∨
    (∃ idx raw, e = mkBracket idx raw ∧
      ¬∃ u v, raw = u ++ '\\' :: ']' :: v) ∨
    (∃ idx raw, e = mkInline idx raw ∧ interiorRejects '$' raw) ∨
    (∃ idx raw, e = mkParen idx raw ∧
      ¬∃ u v, raw = u ++ '\\' :: ')' :: v) := by
  rw [process_math_expressions_def] at h
  rcases scanTwoF_mem '\\' '(' '\\' ')' mkParen _ _ _ e h with h3 | hnew
  · rcases scanOneF_mem _ _ _ _ e h3 with h2 | hnew
    · rcases scanTwoF_mem '\\' '[' '\\' ']' mkBracket _ _ _ e h2 with
        h1 | hnew
      · rcases scanTwoF_mem '$' '$' '$' '$' mkDollarDollar _ _ _ e h1 with
          h0 | hnew
        · exact absurd h0 (List.not_mem_nil e)
        · exact Or.inl hnew
      · exact Or.inr (Or.inl hnew)
    · exact Or.inr (Or.inr (Or.inl hnew))
  · exact Or.inr (Or.inr (Or.inr hnew))

theorem process_spanListOK (input : List Char) :
    SpanListOK (process_math_expressions input).2 := by
  rw [process_math_expressions_def]
  apply scanTwoF_spanListOK _ _ _ _ _ mkParen_ph
  apply scanOneF_spanListOK
  apply scanTwoF_spanListOK _ _ _ _ _ mkBracket_ph
  apply scanTwoF_spanListOK _ _ _ _ _ mkDollarDollar_ph
  intro i hi
  simp at hi

theorem process_ph_shape {input : List Char} {e : MathExpr}
    (h : e ∈ (process_math_expressions input).2) :
    ∃ b k, e.placeholder = mkPh b k ∧
      k < (process_math_expressions input).2.length := by
  obtain ⟨i, hg⟩ := List.mem_iff_get.mp h
  obtain ⟨b, hb⟩ := process_spanListOK input i.1 i.2
  refine ⟨b, i.1, ?_, i.2⟩
  rw [← hg]
  rw [← hb]

theorem countOcc_le_of_pref {q p : List Char} (hq : q <+: p) :
    ∀ t : List Char, countOcc p t ≤ countOcc q t
  | [] => by
    rw [countOcc_nil, countOcc_nil]
    by_cases h : p.isPrefixOf ([] : List Char) = true
    · have hp : p = [] :=
        List.prefix_nil.mp (List.isPrefixOf_iff_prefix.mp h)
      have : q = [] := List.prefix_nil.mp (hp ▸ hq)
      rw [if_pos h, if_pos (List.isPrefixOf_iff_prefix.mpr (by simp [this]))]
    · rw [if_neg h]
      omega
  | c :: rest => by
    rw [countOcc_cons, countOcc_cons]
    have hmono : p.isPrefixOf (c :: rest) = true →
        q.isPrefixOf (c :: rest) = true := by
      intro hx
      rw [List.isPrefixOf_iff_prefix] at hx ⊢
      exact hq.trans hx
    have := countOcc_le_of_pref hq rest
    by_cases h : p.isPrefixOf (c :: rest) = true
    · rw [if_pos h, if_pos (hmono h)]
      omega
    · rw [if_neg h]
      split <;> omega

theorem phMarker_pref_mkPh (b : Bool) (k : Nat) : phMarker <+: mkPh b k := by
  cases b
  · have h1 : phMarker ++ "INLINE_".toList = "<!--MATH_INLINE_".toList := by
      decide
    refine ⟨"INLINE_".toList ++ (natDigits k ++ "-->".toList), ?_⟩
    rw [← List.append_assoc, h1]
    have e : mkPh false k =
        "<!--MATH_INLINE_".toList ++ natDigits k ++ "-->".toList := rfl
    rw [e, List.append_assoc]
  · have h1 : phMarker ++ "BLOCK_".toList = "<!--MATH_BLOCK_".toList := by
      decide
    refine ⟨"BLOCK_".toList ++ (natDigits k ++ "-->".toList), ?_⟩
    rw [← List.append_assoc, h1]
    have e : mkPh true k =
        "<!--MATH_BLOCK_".toList ++ natDigits k ++ "-->".toList := rfl
    rw [e, List.append_assoc]

theorem countOcc_mkPh_input_zero {input : List Char}
    (hM : countOcc phMarker input = 0) (b : Bool) (k : Nat) :
    countOcc (mkPh b k) input = 0 := by
  have := countOcc_le_of_pref (phMarker_pref_mkPh b k) input
  omega

theorem process_countOcc (b : Bool) (k : Nat) (input : List Char)
    (hM : countOcc phMarker input = 0) :
    countOcc (mkPh b k) (process_math_expressions input).1 ≤
      (if k < (process_math_expressions input).2.length then 1 else 0) := by
  rw [process_math_expressions_def]
  set r1 := scanTwoF '$' '$' '$' '$' mkDollarDollar input.length input []
    with hr1
  set r2 := scanTwoF '\\' '[' '\\' ']' mkBracket r1.1.length r1.1 r1.2
    with hr2
  set r3 := scanOneF r2.1.length none r2.1 r2.2 with hr3
  set r4 := scanTwoF '\\' '(' '\\' ')' mkParen r3.1.length r3.1 r3.2
    with hr4
  show countOcc (mkPh b k) r4.1 ≤ if k < r4.2.length then 1 else 0
  have hc1 := scanTwoF_countOcc '$' '$' '$' '$' mkDollarDollar
    mkDollarDollar_ph b k input.length input [] []
  have hc2 := scanTwoF_countOcc '\\' '[' '\\' ']' mkBracket
    mkBracket_ph b k r1.1.length r1.1 r1.2 []
  have hc3 := scanOneF_countOcc b k r2.1.length none r2.1 r2.2 []
  have hc4 := scanTwoF_countOcc '\\' '(' '\\' ')' mkParen
    mkParen_ph b k r3.1.length r3.1 r3.2 []
  rw [← hr1] at hc1
  rw [← hr2] at hc2
  rw [← hr3] at hc3
  rw [← hr4] at hc4
  simp only [List.nil_append] at hc1 hc2 hc3 hc4
  have hz : countOcc (mkPh b k) input = 0 := countOcc_mkPh_input_zero hM b k
  have hm1 : r1.2.length ≤ r2.2.length := by
    rw [hr2]
    exact scanTwoF_len_ge _ _ _ _ _ _ _ _
  have hm2 : r2.2.length ≤ r3.2.length := by
    rw [hr3]
    exact scanOneF_len_ge _ _ _ _
  have hm3 : r3.2.length ≤ r4.2.length := by
    rw [hr4]
    exact scanTwoF_len_ge _ _ _ _ _ _ _ _
  have hl0 : (([] : List MathExpr)).length = 0 := rfl
  rw [hl0] at hc1
  -- chain the four bounds; at most one indicator fires since the index
  -- ranges of the four passes are disjoint
  by_cases hk : k < r4.2.length
  · rw [if_pos hk]
    split at hc1 <;> split at hc2 <;> split at hc3 <;> split at hc4 <;>
      omega
  · rw [if_neg hk]
    split at hc1 <;> split at hc2 <;> split at hc3 <;> split at hc4 <;>
      omega

theorem count_le_one_of_no_two {t : List Char}
    (h : ¬∃ u v w, t = u ++ '$' :: (v ++ '$' :: w)) :
    List.count '$' t ≤ 1 := by
  by_contra hc
  push_neg at hc
  have hmem : '$' ∈ t := List.count_pos_iff.mp (by omega)
  obtain ⟨s, t', hst⟩ := List.append_of_mem hmem
  have hcnt : List.count '$' t =
      List.count '$' s + 1 + List.count '$' t' := by
    rw [hst, List.count_append, List.count_cons]
    simp only [beq_self_eq_true, if_true]
    omega
  by_cases h2 : 0 < List.count '$' t'
  · have hm2 : '$' ∈ t' := List.count_pos_iff.mp h2
    obtain ⟨v, w, hvw⟩ := List.append_of_mem hm2
    exact h ⟨s, v, w, by rw [hst, hvw]⟩
  · have h3 : 0 < List.count '$' s := by omega
    have hm2 : '$' ∈ s := List.count_pos_iff.mp h3
    obtain ⟨u, v', huv⟩ := List.append_of_mem hm2
    refine h ⟨u, v', t', ?_⟩
    rw [hst, huv]
    simp [List.append_assoc]

theorem no_decomp2 {t : List Char} {a b c d : Char} (h : a ∉ t) :
    ¬∃ u v w, t = u ++ a :: b :: (v ++ c :: d :: w) :=
  fun ⟨_, _, _, he⟩ => h (by rw [he]; simp)

theorem no_decomp1 {t : List Char} {a : Char} (h : a ∉ t) :
    ¬∃ u v w, t = u ++ a :: (v ++ a :: w) :=
  fun ⟨_, _, _, he⟩ => h (by rw [he]; simp)

theorem no_pair_rustTrim {c1 c2 : Char} {raw : List Char}
    (h : ¬∃ u v, raw = u ++ c1 :: c2 :: v) :
    ¬∃ u v, rustTrim raw = u ++ c1 :: c2 :: v := by
  rintro ⟨u, v, he⟩
  obtain ⟨s, t', hst⟩ := rustTrim_isInfix raw
  refine h ⟨s ++ u, v ++ t', ?_⟩
  rw [← hst, he]
  simp [List.append_assoc]

-- ─────────────────────────────────────────────
--  Claim theorems
-- ─────────────────────────────────────────────

/-- **C1** — Resynthesis postcondition: for every span produced by
extraction and every rendered text, the resynthesis step
(`replacen(placeholder, math_html, 1)`) substitutes the placeholder at most
once: when the placeholder is absent the text is unchanged (no-op, no
failure), and when it occurs, exactly its first occurrence is replaced by the
kind-appropriate wrapper markup — a display-math container with the content
re-wrapped in `$$...$$` for Block, an inline-math container with the content
re-wrapped in `$...$` for Inline; later occurrences are untouched (never a
global replace). -/
theorem c1_resynthesis (input rendered : List Char) (e : MathExpr)
    (he : e ∈ (process_math_expressions input).2) :
    ((∀ i, i < rendered.length →
        ¬ e.placeholder.isPrefixOf (rendered.drop i) = true) →
      resynthOne rendered e = rendered) ∧
    (∀ u v, rendered = u ++ (e.placeholder ++ v) →
      (∀ i, i < u.length →
        ¬ e.placeholder.isPrefixOf (rendered.drop i) = true) →
      resynthOne rendered e =
        u ++ ((match e.kind with
          | MathKind.Block =>
            "<div class=\"math-block\"><span class=\"katex-display\">$$".toList
              ++ e.content ++ "$$</span></div>".toList
          | MathKind.Inline =>
            "<span class=\"math-inline\">$".toList ++ e.content
              ++ "$</span>".toList) ++ v)) := by
  obtain ⟨b, k, hph, _⟩ := process_ph_shape he
  have hne : e.placeholder ≠ [] := by
    rw [hph]
    exact mkPh_ne_nil b k
  constructor
  · intro h
    exact replacen1_no_occ hne _ rendered h
  · intro u v hr hmin
    unfold resynthOne
    rw [hr, replacen1_first hne _ u v (fun i hi => by
      rw [← hr]
      exact hmin i hi)]
    cases e.kind
    · rfl
    · rfl

/-- Witness for C1 at a concrete span and two concrete rendered texts: one
without the placeholder (no-op) and one containing it (first occurrence
replaced by the block wrapper). -/
theorem c1_resynthesis_witness :
    resynthOne "no math here".toList
        ⟨MathKind.Block, "x".toList, "<!--MATH_BLOCK_0-->".toList⟩ =
      "no math here".toList ∧
    resynthOne "A<!--MATH_BLOCK_0-->B".toList
        ⟨MathKind.Block, "x".toList, "<!--MATH_BLOCK_0-->".toList⟩ =
      "A".toList ++
        (("<div class=\"math-block\"><span class=\"katex-display\">$$".toList
          ++ "x".toList ++ "$$</span></div>".toList) ++ "B".toList) := by
  constructor
  · exact (c1_resynthesis "$$x$$".toList "no math here".toList
      ⟨MathKind.Block, "x".toList, "<!--MATH_BLOCK_0-->".toList⟩
      (by decide)).1 (by decide)
  · exact (c1_resynthesis "$$x$$".toList "A<!--MATH_BLOCK_0-->B".toList
      ⟨MathKind.Block, "x".toList, "<!--MATH_BLOCK_0-->".toList⟩
      (by decide)).2 "A".toList "B".toList (by decide) (by decide)

/-- **C2** — Precedence: block forms are resolved before the single-dollar
scan, so `$$x$$` is read as one Block span (never an inline span), and
`"$$ x $$ $y$"` extracts exactly two spans, in order Block `"x"` then Inline
`"y"`. -/
theorem c2_precedence :
    (process_math_expressions "$$x$$".toList).2.map
        (fun e => (e.kind, e.content)) = [(MathKind.Block, "x".toList)] ∧
    (process_math_expressions "$$ x $$ $y$".toList).2.map
        (fun e => (e.kind, e.content)) =
      [(MathKind.Block, "x".toList), (MathKind.Inline, "y".toList)] := by
  decide

/-- **C3 counterexample** — the claim "a span extracted through an
inline-form delimiter is Inline unless its (stored) content contains a
newline" fails on `"$ \nx $"`: the `$...$` pass checks the newline on the
untrimmed interior `" \nx "` and stores the trimmed content `"x"`, producing
a Block span whose stored content has no newline. -/
theorem c3_newline_cex :
    (process_math_expressions "$ \nx $".toList).2.map
        (fun e => (e.kind, e.content)) = [(MathKind.Block, "x".toList)] ∧
    ¬ (∀ e ∈ (process_math_expressions "$ \nx $".toList).2,
        '\n' ∉ e.content → e.kind = MathKind.Inline) := by
  decide

/-- **C3 amended** — Newline promotion, as the code implements it: a span
extracted by the `$...$` pass is Inline unless its raw (pre-trim) interior
contains a newline, and its stored content is the trimmed interior; a span
extracted by the `\(...\)` pass is Inline unless its stored (trimmed) content
contains a newline.  In particular `"$a\nb$"` yields exactly one span with
kind Block and content `"a\nb"`. -/
theorem c3_newline_amended :
    (∀ (fuel : Nat) (prev : Option Char) (t : List Char) (es : List MathExpr)
        (e : MathExpr), e ∈ (scanOneF fuel prev t es).2 → e ∈ es ∨
        ∃ raw, e.content = rustTrim raw ∧
          (e.kind = MathKind.Block ↔ '\n' ∈ raw)) ∧
    (∀ (fuel : Nat) (t : List Char) (es : List MathExpr) (e : MathExpr),
        e ∈ (scanTwoF '\\' '(' '\\' ')' mkParen fuel t es).2 → e ∈ es ∨
          (e.kind = MathKind.Block ↔ '\n' ∈ e.content)) ∧
    (process_math_expressions "$a\nb$".toList).2.map
        (fun e => (e.kind, e.content)) = [(MathKind.Block, "a\nb".toList)]
    := by
  refine ⟨?_, ?_, by decide⟩
  · intro fuel prev t es e h
    rcases scanOneF_mem fuel prev t es e h with h1 | ⟨idx, raw, rfl, _⟩
    · exact Or.inl h1
    · exact Or.inr ⟨raw, (mkInline_kind idx raw).2, (mkInline_kind idx raw).1⟩
  · intro fuel t es e h
    rcases scanTwoF_mem '\\' '(' '\\' ')' mkParen fuel t es e h with
      h1 | ⟨idx, raw, rfl, _⟩
    · exact Or.inl h1
    · exact Or.inr (mkParen_kind idx raw)

/-- Witness for C3 amended, at concrete runs of the `$...$` pass (on
`"$ \nx $"`) and of the `\(...\)` pass (on `"\(a\)"`). -/
theorem c3_newline_amended_witness :
    ((⟨MathKind.Block, "x".toList, "<!--MATH_BLOCK_0-->".toList⟩ : MathExpr)
        ∈ ([] : List MathExpr) ∨
      ∃ raw, "x".toList = rustTrim raw ∧
        (MathKind.Block = MathKind.Block ↔ '\n' ∈ raw)) ∧
    ((⟨MathKind.Inline, "a".toList, "<!--MATH_INLINE_0-->".toList⟩ : MathExpr)
        ∈ ([] : List MathExpr) ∨
      (MathKind.Inline = MathKind.Block ↔ '\n' ∈ "a".toList)) := by
  constructor
  · exact c3_newline_amended.1 7 none "$ \nx $".toList []
      ⟨MathKind.Block, "x".toList, "<!--MATH_BLOCK_0-->".toList⟩ (by decide)
  · exact c3_newline_amended.2.1 6 "\\(a\\)".toList []
      ⟨MathKind.Inline, "a".toList, "<!--MATH_INLINE_0-->".toList⟩ (by decide)

/-- **C4** — Content trimming and round-trip: every extracted span's stored
content is fixed under trimming (it is the delimiter-stripped interior with
leading and trailing whitespace removed, preserved otherwise), and the full
pipeline on `"$$ x^2 $$"` with a pass-through renderer yields a block-math
container whose inner text is `"$$x^2$$"`. -/
theorem c4_trim_roundtrip :
    (∀ (input : List Char) (e : MathExpr),
        e ∈ (process_math_expressions input).2 →
        rustTrim e.content = e.content) ∧
    render id "$$ x^2 $$".toList =
      ("<div class=\"math-block\"><span class=\"katex-display\">" ++
        "$$x^2$$</span></div>").toList := by
  constructor
  · intro input e he
    rcases process_mem he with ⟨i, r, rfl, _⟩ | ⟨i, r, rfl, _⟩ |
      ⟨i, r, rfl, _⟩ | ⟨i, r, rfl, _⟩
    · exact mkDollarDollar_content i r
    · exact mkBracket_content i r
    · exact mkInline_content i r
    · exact mkParen_content i r
  · decide

/-- Witness for C4 at the concrete span extracted from `"$$ x^2 $$"`. -/
theorem c4_trim_roundtrip_witness :
    rustTrim "x^2".toList = "x^2".toList :=
  c4_trim_roundtrip.1 "$$ x^2 $$".toList
    ⟨MathKind.Block, "x^2".toList, "<!--MATH_BLOCK_0-->".toList⟩ (by decide)

/-- **C5** — Escaping: a `$` immediately preceded by a backslash is rejected
both as an opening single-dollar delimiter (the scanner emits it literally
and moves on) and as a closing one (the closer search skips it); in
particular `"\$5 and \$10"` yields zero spans and the text is unchanged
byte-for-byte. -/
theorem c5_escaping :
    (∀ (fuel : Nat) (rest : List Char) (es : List MathExpr),
      scanOneF (fuel + 1) (some '\\') ('$' :: rest) es =
        ('$' :: (scanOneF fuel (some '$') rest es).1,
         (scanOneF fuel (some '$') rest es).2)) ∧
    (∀ rest : List Char, findClose '\\' ('$' :: rest) =
        Option.map (fun pr => ('$' :: pr.1, pr.2)) (findClose '$' rest)) ∧
    process_math_expressions "\\$5 and \\$10".toList =
      ("\\$5 and \\$10".toList, []) := by
  refine ⟨?_, ?_, by decide⟩
  · intro fuel rest es
    exact scanOneF_step_other (fun h => h.2.2.1 rfl)
  · intro rest
    rw [findClose, if_neg (fun hx => hx.2.1 rfl)]
    cases h : findClose '$' rest with
    | none => rfl
    | some pr =>
      obtain ⟨c, r⟩ := pr
      rfl

/-- **C6** — Unterminated inline degrades gracefully: when a `$` accepted as
an opener has no valid closer before end of input, the opening `$` is emitted
as a literal character, scanning resumes one position later, and no span is
produced; in particular `"$unterminated"` yields zero spans and the text is
preserved verbatim. -/
theorem c6_unterminated :
    (∀ (fuel : Nat) (prev : Option Char) (rest : List Char)
        (es : List MathExpr),
      prev ≠ some '$' → prev ≠ some '\\' → rest.head? ≠ some '$' →
      findClose '$' rest = none →
      scanOneF (fuel + 1) prev ('$' :: rest) es =
        ('$' :: (scanOneF fuel (some '$') rest es).1,
         (scanOneF fuel (some '$') rest es).2)) ∧
    process_math_expressions "$unterminated".toList =
      ("$unterminated".toList, []) := by
  refine ⟨?_, by decide⟩
  intro fuel prev rest es hp1 hp2 hp3 hnone
  exact scanOneF_step_none ⟨hp1, hp2, hp3⟩ hnone

/-- Witness for C6 at `"$unterminated"`: the opener at position 0 has no
closer, is emitted literally, and scanning resumes. -/
theorem c6_unterminated_witness :
    scanOneF (12 + 1) none ('$' :: "unterminated".toList) [] =
      ('$' :: (scanOneF 12 (some '$') "unterminated".toList []).1,
       (scanOneF 12 (some '$') "unterminated".toList []).2) :=
  c6_unterminated.1 12 none "unterminated".toList []
    (by decide) (by decide) (by decide) (by decide)

/-- **C7 counterexample** — the claim "every placeholder token that appears
in the intermediate text appears in that text exactly once" fails as stated
(for every input): on the input `"<!--MATH_BLOCK_0-->$$x$$"`, whose text
already contains a placeholder-shaped token, the single extracted span's
placeholder occurs twice in the intermediate text. -/
theorem c7_placeholder_cex :
    (process_math_expressions "<!--MATH_BLOCK_0-->$$x$$".toList).2.map
        (fun e => e.placeholder) = ["<!--MATH_BLOCK_0-->".toList] ∧
    countOcc "<!--MATH_BLOCK_0-->".toList
      (process_math_expressions "<!--MATH_BLOCK_0-->$$x$$".toList).1 = 2 ∧
    ¬ (∀ e ∈ (process_math_expressions "<!--MATH_BLOCK_0-->$$x$$".toList).2,
        countOcc e.placeholder
          (process_math_expressions "<!--MATH_BLOCK_0-->$$x$$".toList).1 ≤ 1)
    := by
  decide

/-- **C7 amended** — Placeholder invariant, restricted as the counterexample
forces: for every input, distinct extracted spans receive distinct
placeholder tokens, and placeholder tokens contain no characters recognized
by any delimiter grammar (so no later pass extracts math from inside an
already-substituted region); and provided the input does not itself contain
the placeholder prefix `<!--MATH_`, every span's placeholder appears in the
intermediate text at most once, and every placeholder-shaped token with an
index beyond the span list never appears, so a placeholder appearing in the
intermediate text corresponds to exactly one MathSpan. -/
theorem c7_placeholder_amended (input : List Char) :
    (∀ i j (hi : i < (process_math_expressions input).2.length)
        (hj : j < (process_math_expressions input).2.length), i ≠ j →
        ((process_math_expressions input).2.get ⟨i, hi⟩).placeholder ≠
          ((process_math_expressions input).2.get ⟨j, hj⟩).placeholder) ∧
    (∀ e ∈ (process_math_expressions input).2, ∀ c ∈ e.placeholder,
        c ≠ '$' ∧ c ≠ '\\' ∧ c ≠ '[' ∧ c ≠ ']' ∧ c ≠ '(' ∧ c ≠ ')') ∧
    (countOcc phMarker input = 0 →
      (∀ e ∈ (process_math_expressions input).2,
        countOcc e.placeholder (process_math_expressions input).1 ≤ 1) ∧
      (∀ b k, (process_math_expressions input).2.length ≤ k →
        countOcc (mkPh b k) (process_math_expressions input).1 = 0)) := by
  refine ⟨?_, ?_, ?_⟩
  · intro i j hi hj hij hne
    obtain ⟨bi, hbi⟩ := process_spanListOK input i hi
    obtain ⟨bj, hbj⟩ := process_spanListOK input j hj
    rw [hbi, hbj] at hne
    exact hij (mkPh_inj hne).2
  · intro e he c hc
    obtain ⟨b, k, hph, _⟩ := process_ph_shape he
    rw [hph] at hc
    exact mem_mkPh_not_delim hc
  · intro hM
    constructor
    · intro e he
      obtain ⟨b, k, hph, hk⟩ := process_ph_shape he
      have := process_countOcc b k input hM
      rw [if_pos hk] at this
      rw [hph]
      exact this
    · intro b k hk
      have := process_countOcc b k input hM
      rw [if_neg (by omega)] at this
      omega

/-- Witness for C7 amended at the input `"$$x$$ $y$"` (two spans, marker-free
input): the two placeholders differ, the first placeholder has no delimiter
characters, and it occurs at most once in the intermediate text. -/
theorem c7_placeholder_amended_witness :
    ((process_math_expressions "$$x$$ $y$".toList).2.get
        ⟨0, by decide⟩).placeholder ≠
      ((process_math_expressions "$$x$$ $y$".toList).2.get
        ⟨1, by decide⟩).placeholder ∧
    countOcc
      ((process_math_expressions "$$x$$ $y$".toList).2.get
        ⟨0, by decide⟩).placeholder
      (process_math_expressions "$$x$$ $y$".toList).1 ≤ 1 := by
  constructor
  · exact (c7_placeholder_amended "$$x$$ $y$".toList).1 0 1
      (by decide) (by decide) (by decide)
  · exact ((c7_placeholder_amended "$$x$$ $y$".toList).2.2 (by decide)).1
      ((process_math_expressions "$$x$$ $y$".toList).2.get ⟨0, by decide⟩)
      (List.get_mem (process_math_expressions "$$x$$ $y$".toList).2 0
        (by decide))

/-- **C8** — Totality / no panic: the byte-level single-dollar scan, run on
the UTF-8 bytes of any well-formed input, always completes with a result —
every string index and slice it uses lands on a character boundary and no
step panics (`none` in the model marks every potential panic site). -/
theorem c8_totality (prev : Option Nat) (bs : List Nat) (k : Nat)
    (h : ValidUtf8 bs) : ∃ out, scanOneB prev bs k = some out :=
  Option.isSome_iff_exists.mp
    (scanOneBF_isSome (bs.length + 1) prev bs k h (by omega))

/-- Witness for C8 on the UTF-8 bytes of `"é$x$"` (a two-byte character
followed by an inline span). -/
theorem c8_totality_witness :
    ∃ out, scanOneB none [195, 169, 36, 120, 36] 0 = some out :=
  c8_totality none [195, 169, 36, 120, 36] 0
    (ValidUtf8.two (by decide) (by decide) (by decide)
      (ValidUtf8.ascii (by decide)
        (ValidUtf8.ascii (by decide)
          (ValidUtf8.ascii (by decide) ValidUtf8.nil))))

/-- **C9** — Identity on delimiter-free input: an input containing none of
the four delimiter forms (`$$...$$`, `\[...\]`, `$...$`, `\(...\)`) passes
through extraction unchanged byte-for-byte with an empty span list. -/
theorem c9_identity (t : List Char)
    (h1 : ¬∃ u v w, t = u ++ '$' :: '$' :: (v ++ '$' :: '$' :: w))
    (h2 : ¬∃ u v w, t = u ++ '\\' :: '[' :: (v ++ '\\' :: ']' :: w))
    (h3 : ¬∃ u v w, t = u ++ '$' :: (v ++ '$' :: w))
    (h4 : ¬∃ u v w, t = u ++ '\\' :: '(' :: (v ++ '\\' :: ')' :: w)) :
    process_math_expressions t = (t, []) := by
  have e1 : scanTwo '$' '$' '$' '$' mkDollarDollar t [] = (t, []) :=
    scanTwoF_id '$' '$' '$' '$' mkDollarDollar t.length t [] h1
  have e2 : scanTwo '\\' '[' '\\' ']' mkBracket t [] = (t, []) :=
    scanTwoF_id '\\' '[' '\\' ']' mkBracket t.length t [] h2
  have e3 : scanOne none t [] = (t, []) :=
    scanOneF_id t.length none t [] (count_le_one_of_no_two h3)
  have e4 : scanTwo '\\' '(' '\\' ')' mkParen t [] = (t, []) :=
    scanTwoF_id '\\' '(' '\\' ')' mkParen t.length t [] h4
  rw [process_math_expressions_def, e1]
  dsimp only
  rw [e2]
  dsimp only
  rw [e3]
  dsimp only
  exact e4

/-- Witness for C9 at the delimiter-free input `"hello world"`. -/
theorem c9_identity_witness :
    process_math_expressions "hello world".toList =
      ("hello world".toList, []) :=
  c9_identity "hello world".toList
    (no_decomp2 (by decide)) (no_decomp2 (by decide))
    (no_decomp1 (by decide)) (no_decomp2 (by decide))

/-- **C10** — Content excludes its producing delimiters: a span added by the
`$$...$$` pass stores content with no `"$$"`, one added by the `\[...\]` pass
stores content with no `"\]"`, one added by the `\(...\)` pass stores content
with no `"\)"`, and a span added by the `$...$` pass stores the trimmed form
of an interior in which every `$` fails the closer test (escaped, or adjacent
to another `$`) — no valid single-dollar delimiter. -/
theorem c10_content_delimiters :
    (∀ (fuel : Nat) (t : List Char) (es : List MathExpr) (e : MathExpr),
        e ∈ (scanTwoF '$' '$' '$' '$' mkDollarDollar fuel t es).2 →
        e ∈ es ∨ ¬∃ u v, e.content = u ++ '$' :: '$' :: v) ∧
    (∀ (fuel : Nat) (t : List Char) (es : List MathExpr) (e : MathExpr),
        e ∈ (scanTwoF '\\' '[' '\\' ']' mkBracket fuel t es).2 →
        e ∈ es ∨ ¬∃ u v, e.content = u ++ '\\' :: ']' :: v) ∧
    (∀ (fuel : Nat) (t : List Char) (es : List MathExpr) (e : MathExpr),
        e ∈ (scanTwoF '\\' '(' '\\' ')' mkParen fuel t es).2 →
        e ∈ es ∨ ¬∃ u v, e.content = u ++ '\\' :: ')' :: v) ∧
    (∀ (fuel : Nat) (prev : Option Char) (t : List Char) (es : List MathExpr)
        (e : MathExpr), e ∈ (scanOneF fuel prev t es).2 →
        e ∈ es ∨ ∃ raw, e.content = rustTrim raw ∧ interiorRejects '$' raw)
    := by
  refine ⟨?_, ?_, ?_, ?_⟩
  · intro fuel t es e h
    rcases scanTwoF_mem '$' '$' '$' '$' mkDollarDollar fuel t es e h with
      h1 | ⟨idx, raw, rfl, hnp⟩
    · exact Or.inl h1
    · exact Or.inr (no_pair_rustTrim hnp)
  · intro fuel t es e h
    rcases scanTwoF_mem '\\' '[' '\\' ']' mkBracket fuel t es e h with
      h1 | ⟨idx, raw, rfl, hnp⟩
    · exact Or.inl h1
    · exact Or.inr (no_pair_rustTrim hnp)
  · intro fuel t es e h
    rcases scanTwoF_mem '\\' '(' '\\' ')' mkParen fuel t es e h with
      h1 | ⟨idx, raw, rfl, hnp⟩
    · exact Or.inl h1
    · refine Or.inr ?_
      have hc : (mkParen idx raw).content = rustTrim raw := by
        by_cases hnl : '\n' ∈ rustTrim raw
        · simp only [mkParen, hnl, if_true, reduceIte]
        · simp only [mkParen, hnl, if_false, reduceIte]
      rw [hc]
      exact no_pair_rustTrim hnp
  · intro fuel prev t es e h
    rcases scanOneF_mem fuel prev t es e h with h1 | ⟨idx, raw, rfl, hrej⟩
    · exact Or.inl h1
    · exact Or.inr ⟨raw, (mkInline_kind idx raw).2, hrej⟩

/-- Witness for C10 at concrete runs of each of the four passes. -/
theorem c10_content_delimiters_witness :
    ((⟨MathKind.Block, "a".toList, "<!--MATH_BLOCK_0-->".toList⟩ : MathExpr)
        ∈ ([] : List MathExpr) ∨
      ¬∃ u v, "a".toList = u ++ '$' :: '$' :: v) ∧
    ((⟨MathKind.Block, "b".toList, "<!--MATH_BLOCK_0-->".toList⟩ : MathExpr)
        ∈ ([] : List MathExpr) ∨
      ¬∃ u v, "b".toList = u ++ '\\' :: ']' :: v) ∧
    ((⟨MathKind.Inline, "c".toList, "<!--MATH_INLINE_0-->".toList⟩ : MathExpr)
        ∈ ([] : List MathExpr) ∨
      ¬∃ u v, "c".toList = u ++ '\\' :: ')' :: v) ∧
    ((⟨MathKind.Inline, "d".toList, "<!--MATH_INLINE_0-->".toList⟩ : MathExpr)
        ∈ ([] : List MathExpr) ∨
      ∃ raw, "d".toList = rustTrim raw ∧ interiorRejects '$' raw) := by
  refine ⟨?_, ?_, ?_, ?_⟩
  · exact c10_content_delimiters.1 5 "$$a$$".toList []
      ⟨MathKind.Block, "a".toList, "<!--MATH_BLOCK_0-->".toList⟩ (by decide)
  · exact c10_content_delimiters.2.1 5 "\\[b\\]".toList []
      ⟨MathKind.Block, "b".toList, "<!--MATH_BLOCK_0-->".toList⟩ (by decide)
  · exact c10_content_delimiters.2.2.1 5 "\\(c\\)".toList []
      ⟨MathKind.Inline, "c".toList, "<!--MATH_INLINE_0-->".toList⟩
      (by decide)
  · exact c10_content_delimiters.2.2.2 3 none "$d$".toList []
      ⟨MathKind.Inline, "d".toList, "<!--MATH_INLINE_0-->".toList⟩
      (by decide)

end Md2Pdf
